import Mathlib

/-!
Shallow embedding of the hybrid retrieval engine of the knowledge-assistant
application: the RAG engine (BM25 index, vector search, Reciprocal Rank
Fusion, re-ranking), the document processor (chunking) and the query
enhancement module, together with theorems about search, fusion, chunking
and ingestion behaviour.

Modelling conventions: Python floats are modelled as rationals; fallible
operations (network calls, per-collection accesses that the source wraps in
try/except blocks) are modelled as Option-valued environment fields; Python
division, which raises ZeroDivisionError on a zero divisor, is modelled in
Except; Python's stable sorted(..., reverse=True) is modelled by a stable
insertion sort.
-/

set_option maxHeartbeats 1000000
set_option maxRecDepth 4000

/-- Python whitespace test: the characters matched by the regex class
that the source code's whitespace handling relies on. -/
def isPySpace (c : Char) : Bool :=
  c = ' ' || c = '\t' || c = '\n' || c = '\r' || c = '\x0b' || c = '\x0c'

/-- Python `str.lower` restricted to the characters the source manipulates:
ASCII letters plus the German umlauts appearing in the expansion tables. -/
def lowerChar (c : Char) : Char :=
  if c = 'Ä' then 'ä' else if c = 'Ö' then 'ö' else if c = 'Ü' then 'ü'
  else c.toLower

/-- Lower-case a whole character list (Python `text.lower()`). -/
def pyLower (l : List Char) : List Char := l.map lowerChar

/-- Lower-case a string. -/
def pyLowerStr (s : String) : String := ⟨pyLower s.toList⟩

/-- The umlaut normalisation of `BM25Index.tokenize`:
`ä→ae`, `ö→oe`, `ü→ue`, `ß→ss` (applied after lower-casing). -/
def umlautExpand (c : Char) : List Char :=
  if c = 'ä' then ['a', 'e'] else if c = 'ö' then ['o', 'e']
  else if c = 'ü' then ['u', 'e'] else if c = 'ß' then ['s', 's'] else [c]

/-- Does `pat` occur at the start of `l`? -/
def listStartsWith : List Char → List Char → Bool
  | [], _ => true
  | _ :: _, [] => false
  | p :: ps, c :: cs => p = c && listStartsWith ps cs

/-- Does `pat` occur anywhere inside `l`? (Python `pat in l`.) -/
def listContainsSub (pat : List Char) : List Char → Bool
  | [] => listStartsWith pat []
  | c :: cs => listStartsWith pat (c :: cs) || listContainsSub pat cs

/-- Python `pat in s` on strings. -/
def strContainsSub (pat s : String) : Bool := listContainsSub pat.toList s.toList

/-- Python `str.strip()` on a character list. -/
def pyStrip (l : List Char) : List Char :=
  ((l.dropWhile isPySpace).reverse.dropWhile isPySpace).reverse

/-- One pass of `re.sub(r'\s+', ' ', text)`: every maximal whitespace run
becomes a single space. -/
def collapseWs : List Char → List Char
  | [] => []
  | [c] => if isPySpace c then [' '] else [c]
  | c :: d :: cs =>
    if isPySpace c && isPySpace d then collapseWs (d :: cs)
    else (if isPySpace c then ' ' else c) :: collapseWs (d :: cs)

/-- Whitespace normalisation used by `_create_chunks`:
`re.sub(r'\s+', ' ', text).strip()`. -/
def normalizeWs (l : List Char) : List Char := pyStrip (collapseWs l)

/-- Normalise one Python slice index against a list of length `n`
(negative indices count from the end, everything is clamped to `[0, n]`). -/
def pyIdx (n : ℕ) (i : ℤ) : ℕ :=
  if i < 0 then ((n : ℤ) + i).toNat else min i.toNat n

/-- Python slicing `l[a:b]` with full negative-index and clamping
semantics. -/
def pySlice (l : List Char) (a b : ℤ) : List Char :=
  (l.take (pyIdx l.length b)).drop (pyIdx l.length a)

/-- Helper for `rfind`: try indices `i, i-1, ..., 0` and return the first
(largest) index where `pat` starts. -/
def rfindGo (l pat : List Char) : ℕ → Option ℕ
  | 0 => if listStartsWith pat l then some 0 else none
  | i + 1 =>
    if listStartsWith pat (l.drop (i + 1)) then some (i + 1) else rfindGo l pat i

/-- Python `l.rfind(pat)`: the largest index at which `pat` occurs in `l`
(`none` models the return value `-1`). -/
def rfind (l pat : List Char) : Option ℕ := rfindGo l pat l.length

/-- Stable descending insertion step: `x` is placed after every element of
equal key, matching the behaviour of Python's stable sort on elements that
arrived before `x`. -/
def insertDesc (val : α → ℚ) (x : α) : List α → List α
  | [] => [x]
  | y :: ys => if val y < val x then x :: y :: ys else y :: insertDesc val x ys

/-- Model of Python `sorted(l, key=val, reverse=True)` (a stable descending
sort: any two stable sorts agree, so insertion sort is a faithful model of
Python's stable mergesort). -/
def sortDesc (val : α → ℚ) (l : List α) : List α :=
  l.foldl (fun acc x => insertDesc val x acc) []

/-- A ChromaDB metadata record, restricted to the keys the embedded code
reads (`meta.get(...)` returning `None` for an absent key is modelled by
`Option`). -/
structure Metadata where
  type_ : Option String := none
  filename : Option String := none
  content_hash : Option String := none
  knowledge_base : Option String := none
  deriving DecidableEq, Repr

/-- The empty metadata dict `{}`. -/
def Metadata.empty : Metadata := {}

/-- `SearchResult` dataclass of the source (scores as rationals). -/
structure SearchResult where
  chunk_id : String
  content : String
  score : ℚ
  metadata : Metadata
  deriving DecidableEq, Repr

/-- One nearest-neighbour hit as returned by a ChromaDB collection query:
id, document text, metadata and cosine distance, in ranked order. -/
structure VecHit where
  id : String
  doc : String
  meta : Metadata
  distance : ℚ
  deriving DecidableEq, Repr

/-- The chunk ids of a result list. -/
def resultIds (l : List SearchResult) : List String := l.map SearchResult.chunk_id

/-- The `GERMAN_STOPWORDS` set of `BM25Index` (the source lists `mehr`
twice; set semantics make the duplicate irrelevant). -/
def GERMAN_STOPWORDS : List String :=
  [ "der", "die", "das", "den", "dem", "des", "ein", "eine", "einer", "eines",
    "einem", "einen",
    "und", "oder", "aber", "wenn", "weil", "dass", "als", "ob", "falls",
    "auch", "nur", "noch", "schon", "wieder", "immer", "sehr", "mehr", "viel",
    "hier", "dort", "da", "nun", "dann", "also", "doch", "ja", "nein",
    "gut", "neu", "alt", "gross", "klein", "lang", "kurz", "jetzt", "heute",
    "ist", "sind", "war", "waren", "wird", "werden", "wurde", "wurden", "hat",
    "haben", "hatte", "hatten", "kann", "können", "konnte", "konnten", "muss",
    "müssen", "musste", "mussten", "soll", "sollen", "sollte", "sollten",
    "will", "wollen", "wollte", "wollten", "darf", "dürfen", "durfte", "durften",
    "sein", "seine", "seiner", "seinem", "seinen", "seines",
    "ich", "du", "er", "sie", "es", "wir", "ihr", "sich", "mich", "dich",
    "ihn", "ihm", "ihnen", "uns", "euch", "mir", "dir", "am", "im", "zum", "zur",
    "mein", "dein", "unser", "euer", "eure", "eurer", "eurem", "euren",
    "dieser", "diese", "dieses", "diesem", "diesen", "jener", "jene", "jenes",
    "welcher", "welche", "welches", "welchem", "welchen",
    "mit", "bei", "nach", "von", "zu", "aus", "in", "an", "auf", "für", "über",
    "unter", "vor", "hinter", "neben", "zwischen", "durch", "gegen", "ohne",
    "um", "bis", "seit", "während", "wegen", "trotz", "samt", "nebst",
    "nicht", "kein", "keine", "keiner", "keines", "keinem", "keinen", "nichts",
    "so", "wie", "was", "wer", "wo", "wann", "warum", "weshalb", "woher", "wohin",
    "alle", "allem", "allen", "aller", "alles", "andere", "anderem", "anderen",
    "anderer", "anderes", "beide", "beiden", "beider", "beides",
    "etwa", "etwas", "man", "mehr", "meist", "meisten", "viele", "vielen",
    "wenig", "wenige", "weniger", "wenigsten",
    "url", "http", "https", "www", "html", "htm", "php", "asp", "aspx", "jsp",
    "com", "org", "net", "edu", "gov", "info",
    "ch", "de", "at", "li",
    "fuer", "ueber", "waehrend", "koennen", "koennten", "muessen", "muessten",
    "duerfen", "duerften", "wuerden", "wuerde", "grosse", "grosser", "grossem",
    "aehnlich", "aehnliche", "naechste", "naechsten", "naechster",
    "gescrapt", "scraping", "oeffnen", "schliessen", "klicken", "button",
    "navigation", "menu", "footer", "header", "sidebar", "cookie", "cookies",
    "datenschutz", "impressum", "agb", "kontakt", "suche", "suchen",
    "seite", "seiten", "weiter", "zurueck", "home", "startseite",
    "januar", "februar", "maerz", "april", "mai", "juni", "juli", "august",
    "september", "oktober", "november", "dezember",
    "montag", "dienstag", "mittwoch", "donnerstag", "freitag", "samstag",
    "sonntag" ]

/-- Word characters for the purposes of the `\b` boundaries in the token
regex `\b[a-z0-9]{2,}\b` (modelled for the ASCII/umlaut texts the engine
handles: ASCII alphanumerics and underscore). -/
def isWordChar (c : Char) : Bool := c.isAlphanum || c = '_'

/-- Characters admitted by the regex character class `[a-z0-9]`. -/
def isTokenChar (c : Char) : Bool := (c.isLower && c.isAlpha) || c.isDigit

/-- Split a character list into maximal runs of word characters
(the stretches between `\b` boundaries). -/
def wordRuns : List Char → List (List Char)
  | [] => []
  | c :: cs =>
    if isWordChar c then
      match wordRuns cs with
      | [] => [[c]]
      | r :: rs =>
        match cs with
        | [] => [[c]]
        | d :: _ => if isWordChar d then (c :: r) :: rs else [c] :: r :: rs
    else wordRuns cs

/-- `re.findall(r'\b[a-z0-9]{2,}\b', text)`: the maximal word runs that
consist entirely of `[a-z0-9]` and have length at least 2. -/
def findTokens (l : List Char) : List (List Char) :=
  (wordRuns l).filter (fun r => r.all isTokenChar && decide (2 ≤ r.length))

/-- `BM25Index.tokenize`: lower-case, normalise umlauts, extract
alphanumeric tokens of length at least 2, drop stopwords. -/
def tokenize (text : String) : List String :=
  let lowered := pyLower text.toList
  let replaced := lowered.flatMap umlautExpand
  let tokens := (findTokens replaced).map (fun r => String.mk r)
  tokens.filter (fun t => !(GERMAN_STOPWORDS.contains t))

/-- The external `rank_bm25.BM25Okapi` object, modelled abstractly by its
scoring function: given the tokenized query it yields one score per corpus
document. -/
structure BM25Okapi where
  get_scores : List String → List ℚ

/-- `BM25Index` state: the optional fitted BM25 object plus the corpus
(`doc_ids`/`documents`) it was built over. -/
structure BM25Index where
  bm25 : Option BM25Okapi
  doc_ids : List String
  documents : List String

/-- Zip of ids, scores and documents, mirroring the comprehension
`[(doc_ids[i], scores[i], documents[i]) for i in range(len(scores))]`
(the library invariant keeps the three lists aligned). -/
def zipScored : List String → List ℚ → List String → List (String × ℚ × String)
  | i :: is, s :: ss, d :: ds => (i, s, d) :: zipScored is ss ds
  | _, _, _ => []

/-- `BM25Index.search`: tokenize the query, score the corpus, keep only
strictly positive scores, sort descending (stable), truncate to `top_k`.
Returns `(doc_id, score, content)` triples. -/
def BM25Index.search (idx : BM25Index) (query : String) (top_k : ℕ) :
    List (String × ℚ × String) :=
  match idx.bm25 with
  | none => []
  | some okapi =>
    if idx.doc_ids = [] then []
    else
      let tq := tokenize query
      if tq = [] then []
      else
        let scores := okapi.get_scores tq
        let scored := (zipScored idx.doc_ids scores idx.documents).filter
          (fun t => decide (0 < t.2.1))
        (sortDesc (fun t => t.2.1) scored).take top_k

/-- One record of the provider-less ("legacy") collection that
`fulltext_search` and `_rebuild_bm25_index` enumerate via
`collection.get(include=["documents", "metadatas"])`. -/
structure LegacyDoc where
  id : String
  doc : String
  meta : Metadata
  deriving DecidableEq, Repr

/-- The state and external collaborators of `RAGEngine`, as visible to the
search and ingestion operations. Option-valued fields model operations the
source wraps in try/except: `none` is a raised-and-caught exception (or an
unavailable provider), `some` a successful call. Query-dependent fields take
the query string first. -/
structure RAGEngine where
  /-- `config.rag.top_k_api`, returned by `get_top_k`. -/
  top_k_api : ℕ
  /-- `config.rag.similarity_threshold`. -/
  similarity_threshold : ℚ
  /-- ids of `list_knowledge_bases()` (used when `kb_ids is None`). -/
  allKbs : List String
  /-- outcome of `embedding_service.embed_text(query)`: `none` models a
  failed query embedding. -/
  emb : String → Option Unit
  /-- ranked nearest-neighbour hits of the active provider's collection for
  a knowledge base, given the query: `none` models a per-kb exception. -/
  vecQuery : String → String → Option (List VecHit)
  /-- `_get_bm25_index(kb_id)` outcome: `none` models a per-kb exception. -/
  bm25Of : String → Option BM25Index
  /-- the legacy collection used for metadata lookups in `bm25_search`:
  outer `none` models a failed `_get_or_create_collection`, inner `none` a
  failed or empty per-id `collection.get`. -/
  metaOf : String → Option (String → Option Metadata)
  /-- full contents of the legacy collection, as enumerated by
  `fulltext_search` and `_rebuild_bm25_index`. -/
  legacy : String → Option (List LegacyDoc)
  /-- provider collections' metadata lists, per knowledge base and provider
  (`"local"`/`"openai"`), as read by `get_document_hash`. -/
  metasOf : String → String → Option (List Metadata)
  /-- `embed_dual(texts).local_available` for the next ingestion. -/
  dualLocalOk : Bool
  /-- `embed_dual(texts).openai_available` for the next ingestion. -/
  dualOpenaiOk : Bool
  /-- success of `collection.add` per knowledge base and provider. -/
  storeOk : String → String → Bool

/-- `RAGEngine.get_top_k`: the source always returns the API value. -/
def RAGEngine.get_top_k (e : RAGEngine) : ℕ := e.top_k_api

/-- `if top_k is None: top_k = self.get_top_k()`. -/
def resolveTopK (e : RAGEngine) (tk : Option ℕ) : ℕ := tk.getD e.get_top_k

/-- `if kb_ids is None: kb_ids = [kb.id for kb in self.list_knowledge_bases()]`. -/
def resolveKbs (e : RAGEngine) (kbIds : Option (List String)) : List String :=
  kbIds.getD e.allKbs

/-- The per-hit processing loop of `RAGEngine.search`: skip the sentinel
(by id and by metadata type), convert distance to similarity
`score = 1 - distance`, and keep only hits with
`score >= similarity_threshold`. -/
def vecHitsToResults (thr : ℚ) : List VecHit → List SearchResult
  | [] => []
  | h :: hs =>
    if h.id = "__kb_metadata__" then vecHitsToResults thr hs
    else if h.meta.type_ = some "kb_metadata" then vecHitsToResults thr hs
    else if thr ≤ 1 - h.distance then
      ⟨h.id, h.doc, 1 - h.distance, h.meta⟩ :: vecHitsToResults thr hs
    else vecHitsToResults thr hs

/-- `RAGEngine.search`: semantic search. A failed query embedding returns
`[]`; each knowledge base's collection is queried for `top_k + 1` hits
(one extra in case the sentinel shows up), a per-kb exception skips that
knowledge base; results are sorted by score descending and truncated. -/
def RAGEngine.search (e : RAGEngine) (query : String)
    (kbIds : Option (List String)) (tk : Option ℕ) : List SearchResult :=
  let top_k := resolveTopK e tk
  match e.emb query with
  | none => []
  | some _ =>
    let kbs := resolveKbs e kbIds
    let all := kbs.foldl (fun acc kb =>
      match e.vecQuery query kb with
      | none => acc
      | some hits =>
        acc ++ vecHitsToResults e.similarity_threshold (hits.take (top_k + 1))) []
    (sortDesc SearchResult.score all).take top_k

/-- `RAGEngine.fulltext_search`: substring scan over the legacy collection's
documents; every hit gets score 1.0. Note: there is no sentinel filtering
in this path. -/
def RAGEngine.fulltext_search (e : RAGEngine) (query : String)
    (kbIds : Option (List String)) : List SearchResult :=
  let kbs := resolveKbs e kbIds
  let ql := pyLower query.toList
  kbs.foldl (fun acc kb =>
    match e.legacy kb with
    | none => acc
    | some docs =>
      acc ++ (docs.filter (fun d => listContainsSub ql (pyLower d.doc.toList))).map
        (fun d => ⟨d.id, d.doc, 1, d.meta⟩)) []

/-- The corpus (`doc_ids`, `documents`) that `_rebuild_bm25_index` feeds to
`BM25Index.build_index`: every record of the collection except the sentinel
(filtered both by id and by metadata type). -/
def rebuildCorpus : List LegacyDoc → List (String × String)
  | [] => []
  | d :: ds =>
    if d.id = "__kb_metadata__" then rebuildCorpus ds
    else if d.meta.type_ = some "kb_metadata" then rebuildCorpus ds
    else (d.id, d.doc) :: rebuildCorpus ds

/-- `RAGEngine.bm25_search`: per knowledge base, search the BM25 index for
`top_k * 2` candidates, attach metadata fetched from the legacy collection
(empty dict on failure), then sort everything by raw BM25 score descending
and truncate to `top_k`. -/
def RAGEngine.bm25_search (e : RAGEngine) (query : String)
    (kbIds : Option (List String)) (tk : Option ℕ) : List SearchResult :=
  let top_k := resolveTopK e tk
  let kbs := resolveKbs e kbIds
  let all := kbs.foldl (fun acc kb =>
    match e.bm25Of kb with
    | none => acc
    | some idx =>
      match e.metaOf kb with
      | none => acc
      | some col =>
        acc ++ (idx.search query (top_k * 2)).map (fun t =>
          ⟨t.1, t.2.2, t.2.1, (col t.1).getD Metadata.empty⟩)) []
  (sortDesc SearchResult.score all).take top_k

/-- `rrf_scores[id] = rrf_scores.get(id, 0) + v` on an insertion-ordered
dict modelled as an association list (updating a key keeps its position,
as Python dicts do). -/
def updScore : List (String × ℚ) → String → ℚ → List (String × ℚ)
  | [], id, v => [(id, v)]
  | (k, w) :: rest, id, v =>
    if k = id then (k, w + v) :: rest else (k, w) :: updScore rest id v

/-- The keys of a score dict, in insertion order. -/
def dictKeys (d : List (String × ℚ)) : List String := d.map Prod.fst

/-- `rrf_scores.get(id, 0)`. -/
def lookupScore (d : List (String × ℚ)) (id : String) : ℚ :=
  ((d.find? (fun p => p.1 == id)).map Prod.snd).getD 0

/-- One leg's RRF accumulation loop,
`for rank, result in enumerate(results): ...`, with the rank counter made
explicit: each occurrence contributes `w / (k + rank + 1)`. -/
def rrfAccumFrom (w : ℚ) (k : ℕ) : ℕ → List SearchResult → List (String × ℚ) →
    List (String × ℚ)
  | _, [], d => d
  | r0, x :: xs, d =>
    rrfAccumFrom w k (r0 + 1) xs (updScore d x.chunk_id (w / ((k : ℚ) + r0 + 1)))

/-- The cumulative contribution of one leg to one chunk id, written as a
direct sum over the leg's ranked list (independent of the dict encoding). -/
def legCumFrom (w : ℚ) (k : ℕ) : ℕ → List SearchResult → String → ℚ
  | _, [], _ => 0
  | r0, x :: xs, id =>
    (if x.chunk_id = id then w / ((k : ℚ) + r0 + 1) else 0) +
      legCumFrom w k (r0 + 1) xs id

/-- The full RRF score dict of `hybrid_search`: the vector pass followed by
the BM25 pass. -/
def rrfDict (vres bres : List SearchResult) (vw bw : ℚ) (k : ℕ) :
    List (String × ℚ) :=
  rrfAccumFrom bw k 0 bres (rrfAccumFrom vw k 0 vres [])

/-- The RRF cumulative score of a chunk id, as the spec words it: each leg
contributes `weight / (k + rank + 1)` at the chunk's rank, contributions
summing across legs. -/
def cumScore (vres bres : List SearchResult) (vw bw : ℚ) (k : ℕ)
    (id : String) : ℚ :=
  legCumFrom vw k 0 vres id + legCumFrom bw k 0 bres id

/-- `result_data[result.chunk_id] = result` (vector pass: unconditional
assignment, keeping dict position on update). -/
def updData : List (String × SearchResult) → SearchResult →
    List (String × SearchResult)
  | [], r => [(r.chunk_id, r)]
  | (k, v) :: rest, r =>
    if k = r.chunk_id then (k, r) :: rest else (k, v) :: updData rest r

/-- `if result.chunk_id not in result_data: result_data[...] = result`
(BM25 pass: insert only if absent). -/
def insData (rd : List (String × SearchResult)) (r : SearchResult) :
    List (String × SearchResult) :=
  if (rd.find? (fun p => p.1 == r.chunk_id)).isSome then rd
  else rd ++ [(r.chunk_id, r)]

/-- The `result_data` dict after both passes of `hybrid_search`. -/
def buildData (vres bres : List SearchResult) : List (String × SearchResult) :=
  bres.foldl insData (vres.foldl updData [])

/-- `result_data[chunk_id]` lookup. -/
def lookupData (rd : List (String × SearchResult)) (id : String) :
    Option SearchResult :=
  (rd.find? (fun p => p.1 == id)).map Prod.snd

/-- `max(rrf_scores.values()) if rrf_scores else 1.0`. -/
def maxScoreD : List (String × ℚ) → ℚ
  | [] => 1
  | p :: ps => ps.foldl (fun m q => max m q.2) p.2

/-- The output loop of `hybrid_search`'s fusion: for each retained id look
up its result (a missing id would be Python's KeyError), then normalise by
`max_score` (a zero divisor is Python's ZeroDivisionError). -/
def normLoop (rd : List (String × SearchResult)) (m : ℚ) :
    List (String × ℚ) → Except String (List SearchResult)
  | [] => .ok []
  | p :: ps =>
    match lookupData rd p.1 with
    | none => .error "KeyError"
    | some r =>
      if m = 0 then .error "ZeroDivisionError"
      else
        match normLoop rd m ps with
        | .error e => .error e
        | .ok rs => .ok (⟨r.chunk_id, r.content, p.2 / m, r.metadata⟩ :: rs)

/-- The Reciprocal Rank Fusion core of `hybrid_search`: accumulate both
legs into the score dict, sort ids by cumulative score descending (stable),
truncate to `top_k`, and return each surviving chunk with its score divided
by the maximum cumulative score. -/
def hybridFuse (vres bres : List SearchResult) (vw bw : ℚ) (k tk : ℕ) :
    Except String (List SearchResult) :=
  let d := rrfDict vres bres vw bw k
  let rd := buildData vres bres
  let sortedD := sortDesc Prod.snd d
  let m := maxScoreD d
  normLoop rd m (sortedD.take tk)

/-- The maximum cumulative RRF score over all fused candidates (the
`max_score` used for normalisation; 1 when there are no candidates). -/
def rrfMax (vres bres : List SearchResult) (vw bw : ℚ) (k : ℕ) : ℚ :=
  maxScoreD (rrfDict vres bres vw bw k)

/-- The `LEGAL_EXPANSIONS` synonym table of `query_enhancement.py`,
transcribed verbatim (keys in dict insertion order). -/
def LEGAL_EXPANSIONS : List (String × List String) :=
  [ ("vertrag", ["Kontrakt", "Vereinbarung", "Obligationenrecht", "OR"]),
    ("vertrag entsteht", ["Entstehung durch Vertrag", "Vertragsschluss",
      "Willensäusserung", "Antrag Annahme"]),
    ("kündigung", ["Kündigungsfrist", "Beendigung", "Auflösung", "Art. 335"]),
    ("kündigungsfrist", ["Probezeit", "Dienstjahr", "Art. 335c OR"]),
    ("arbeitsvertrag", ["Einzelarbeitsvertrag", "Arbeitsverhältnis",
      "Art. 319 OR"]),
    ("miete", ["Mietvertrag", "Mietzins", "Vermieter", "Mieter", "VMWG"]),
    ("kauf", ["Kaufvertrag", "Käufer", "Verkäufer", "Kaufpreis"]),
    ("schaden", ["Schadenersatz", "Haftung", "Art. 41 OR",
      "unerlaubte Handlung"]),
    ("gewährleistung", ["Mängel", "Sachmangel", "Wandelung", "Minderung"]),
    ("gesetz", ["Bundesgesetz", "Verordnung", "SR", "Rechtsnorm"]),
    ("artikel", ["Art.", "Absatz", "Buchstabe", "Ziffer"]),
    ("recht", ["Anspruch", "Berechtigung", "Pflicht"]),
    ("pflicht", ["Obligation", "Verpflichtung", "Schuld"]),
    ("frist", ["Termin", "Zeitraum", "Verjährung"]),
    ("person", ["natürliche Person", "juristische Person", "Rechtsfähigkeit"]),
    ("firma", ["Gesellschaft", "AG", "GmbH", "Einzelunternehmen"]),
    ("ehe", ["Eheschliessung", "Ehevertrag", "Güterstand", "ZGB"]),
    ("erbe", ["Erbschaft", "Nachlass", "Testament", "Erbfolge"]),
    ("datenschutz", ["DSG", "Personendaten", "Datenbearbeitung",
      "Einwilligung"]),
    ("daten", ["Personendaten", "besonders schützenswerte Personendaten",
      "Profiling"]),
    ("strafe", ["Sanktion", "Busse", "Freiheitsstrafe", "StGB"]),
    ("betrug", ["Arglist", "Täuschung", "Vermögensschaden"]),
    ("diebstahl", ["Entwendung", "Aneignung", "Art. 139 StGB"]),
    ("arbeit", ["Arbeitsrecht", "Arbeitnehmer", "Arbeitgeber", "ArG"]),
    ("lohn", ["Gehalt", "Entgelt", "Vergütung", "Saläir"]),
    ("ferien", ["Urlaub", "Ferienanspruch", "Art. 329a OR"]),
    ("überstunden", ["Überzeit", "Mehrarbeit", "Kompensation"]) ]

/-- `KB_EXPANSIONS`: the mapping from knowledge-base id to its expansion
table (only `bundesrecht` is registered). -/
def KB_EXPANSIONS : List (String × List (String × List String)) :=
  [("bundesrecht", LEGAL_EXPANSIONS)]

/-- `KB_EXPANSIONS[kb_id]` lookup (`kb_id in KB_EXPANSIONS` is success). -/
def expansionsFor (kb : String) : Option (List (String × List String)) :=
  (KB_EXPANSIONS.find? (fun p => p.1 == kb)).map Prod.snd

/-- Inner loop of `expand_query` over one expansion table: for each key
that is a substring of the lowered query, append the first three of its
synonyms. -/
def tableTerms (ql : String) : List (String × List String) → List String
  | [] => []
  | (term, syns) :: rest =>
    (if strContainsSub term ql then syns.take 3 else []) ++ tableTerms ql rest

/-- Outer loop of `expand_query` over the targeted knowledge bases. -/
def collectTerms (ql : String) : List String → List String
  | [] => []
  | kb :: rest =>
    (match expansionsFor kb with
     | some tbl => tableTerms ql tbl
     | none => []) ++ collectTerms ql rest

/-- `list(dict.fromkeys(terms))`: deduplicate keeping first occurrences. -/
def dedupFirst : List String → List String
  | [] => []
  | x :: xs => x :: (dedupFirst xs).filter (fun y => !(y == x))

/-- The terms `expand_query` appends to the query (deduplicated, capped at
six; empty when nothing matched). -/
def addedTerms (query : String) (kbIds : List String) : List String :=
  if kbIds = [] then []
  else
    let ts := collectTerms (pyLowerStr query) kbIds
    if ts = [] then [] else (dedupFirst ts).take 6

/-- `expand_query(query, knowledge_base_ids)` of `query_enhancement.py`
(a `None` id list is modelled by `[]`: both are falsy). -/
def expand_query (query : String) (kbIds : List String) : String :=
  if kbIds = [] then query
  else
    let ts := collectTerms (pyLowerStr query) kbIds
    if ts = [] then query
    else query ++ " " ++ String.intercalate " " ((dedupFirst ts).take 6)

/-- `\s*` followed by a digit: the tail of the `Art.`/`SR` regexes. -/
def digitAfterSpaces : List Char → Bool
  | [] => false
  | c :: cs => if isPySpace c then digitAfterSpaces cs else c.isDigit

/-- Does `ARTICLE_PATTERN = Art\.\s*\d+[a-z]?` (IGNORECASE) match at the
head of the list? (Existence of a match only needs `art.` + spaces +
one digit; the optional trailing letter never blocks a match.) -/
def startsArticle : List Char → Bool
  | a :: r :: t :: '.' :: rest =>
    lowerChar a = 'a' && lowerChar r = 'r' && lowerChar t = 't' &&
      digitAfterSpaces rest
  | _ => false

/-- Does `SR_PATTERN = SR\s*\d+\.?\d*` (IGNORECASE) match at the head? -/
def startsSR : List Char → Bool
  | s :: r :: rest =>
    lowerChar s = 's' && lowerChar r = 'r' && digitAfterSpaces rest
  | _ => false

/-- `pattern.search(content)`: does the pattern match at some position? -/
def anySuffix (p : List Char → Bool) : List Char → Bool
  | [] => p []
  | c :: cs => p (c :: cs) || anySuffix p cs

/-- The definitional phrases `DEFINITION_PATTERNS`. -/
def DEFINITION_PATTERNS : List String :=
  [" ist ", " sind ", " bedeutet ", " bezeichnet ", " gilt als "]

/-- Python `str.split()` on whitespace (no empty words). -/
def pyWords : List Char → List String
  | [] => []
  | c :: cs =>
    if isPySpace c then pyWords cs
    else
      match pyWords cs with
      | [] => [String.mk [c]]
      | w :: ws =>
        match cs with
        | [] => [String.mk [c]]
        | d :: _ =>
          if isPySpace d then String.mk [c] :: w :: ws
          else String.mk (c :: w.toList) :: ws

/-- The additive boost `rerank_results` computes for one result. -/
def rerankBoost (queryWords : List String) (boostLegal : Bool)
    (content : String) : ℚ :=
  let cl := pyLower content.toList
  let b1 : ℚ := if boostLegal && anySuffix startsArticle content.toList
    then 15/100 else 0
  let b2 : ℚ := if boostLegal && anySuffix startsSR content.toList
    then 10/100 else 0
  let b3 : ℚ := if DEFINITION_PATTERNS.any
      (fun p => listContainsSub p.toList cl) then 10/100 else 0
  let nMatches : ℕ := queryWords.countP
    (fun w => listContainsSub w.toList cl && decide (3 < w.length))
  let b4 : ℚ := if 2 ≤ nMatches then (20/100) * min ((nMatches : ℚ) / 3) 1 else 0
  let b5 : ℚ := if 200 ≤ content.length && content.length ≤ 600
    then 5/100 else 0
  b1 + b2 + b3 + b4 + b5

/-- `rerank_results(results, query, boost_legal)`: add the heuristic boost
to each score, cap at 1.0, and re-sort by the adjusted score (stable). -/
def rerank_results (results : List SearchResult) (query : String)
    (boostLegal : Bool) : List SearchResult :=
  if results = [] then results
  else
    let qw := dedupFirst (pyWords (pyLower query.toList))
    let ranked := results.map (fun r =>
      { r with score := min 1 (r.score + rerankBoost qw boostLegal r.content) })
    sortDesc SearchResult.score ranked

/-- The query `hybrid_search` actually dispatches to both legs: the
expanded query when expansion is enabled and the kb id list is truthy,
otherwise the original query. -/
def hybridSearchQuery (query : String) (kbIds : Option (List String))
    (expand : Bool) : String :=
  if expand && !(kbIds.getD [] = []) then expand_query query (kbIds.getD [])
  else query

/-- The fixed RRF constant `self.rrf_k = 60` set in `RAGEngine.__init__`. -/
def rrf_k : ℕ := 60

/-- `RAGEngine.hybrid_search`: optional query expansion, both legs with
`top_k * 3` candidates, RRF fusion with score normalisation (which can
raise ZeroDivisionError, modelled in `Except`), optional re-ranking. -/
def RAGEngine.hybrid_search (e : RAGEngine) (query : String)
    (kbIds : Option (List String)) (tk : Option ℕ) (vector_weight bm25_weight : ℚ)
    (enableExpansion enableRerank : Bool) : Except String (List SearchResult) :=
  let top_k := resolveTopK e tk
  let search_query := hybridSearchQuery query kbIds enableExpansion
  let candidates_k := top_k * 3
  let vres := e.search search_query kbIds (some candidates_k)
  let bres := e.bm25_search search_query kbIds (some candidates_k)
  match hybridFuse vres bres vector_weight bm25_weight rrf_k top_k with
  | .error err => .error err
  | .ok fr =>
    if enableRerank && !(fr = []) then
      let boostLegal := (kbIds.getD []).any
        (fun kb => kb = "bundesrecht" || kb = "gemeindewissen")
      .ok (rerank_results fr query boostLegal)
    else .ok fr

/-- Chunk-level metadata: the copied base metadata plus the
`chunk_index`/`chunk_start`/`chunk_end` fields `_create_chunks` adds. -/
structure ChunkMetadata where
  base : Metadata
  chunk_index : ℕ
  chunk_start : ℤ
  chunk_end : ℤ
  deriving DecidableEq, Repr

/-- `DocumentChunk` dataclass (the optional embedding field is unused by
the embedded operations). -/
structure DocumentChunk where
  id : String
  content : String
  metadata : ChunkMetadata
  deriving DecidableEq, Repr

/-- `ProcessedDocument` as consumed by `RAGEngine.add_document`. -/
structure ProcessedDocument where
  id : String
  filename : String
  file_type : String
  chunks : List DocumentChunk
  metadata : Metadata
  raw_text : String
  deriving DecidableEq, Repr

/-- The sentence separators tried, in order, by `_create_chunks`:
`[". ", "! ", "? ", "\n"]`. -/
def chunkSeps : List (List Char) :=
  [['.', ' '], ['!', ' '], ['?', ' '], ['\n']]

/-- The separator loop of `_create_chunks`: try each separator in order;
the first one that occurs in the region wins, with the cut placed after its
last occurrence. Returns the offset of the cut from the region start. -/
def findSnap (region : List Char) : List (List Char) → Option ℕ
  | [] => none
  | sep :: rest =>
    match rfind region sep with
    | some i => some (i + sep.length)
    | none => findSnap region rest

/-- `int(chunk_chars * 0.8)`: exact, since `0.8 * n = 4n/5` and the float
product is exact at the magnitudes in use. -/
def eightyPercent (n : ℕ) : ℕ := 4 * n / 5

/-- The cut-point computation of one iteration of `_create_chunks`: the raw
window end, snapped back to a sentence separator found in the last 20% of
the window whenever the raw end falls strictly inside the text. -/
def cutEnd (text : List Char) (start : ℤ) (chunkChars : ℕ) : ℤ :=
  if start + (chunkChars : ℤ) < (text.length : ℤ) then
    match findSnap
        (pySlice text (start + (eightyPercent chunkChars : ℕ))
          (start + (chunkChars : ℤ)))
        chunkSeps with
    | some k => start + (eightyPercent chunkChars : ℕ) + k
    | none => start + (chunkChars : ℤ)
  else start + (chunkChars : ℤ)

/-- One chunking loop body + recursion, with explicit fuel (`none` models
a run that exceeds the fuel, i.e. potential non-termination of the source's
while loop). -/
def chunkLoop (chunkChars overlapChars : ℕ) (text : List Char) (docId : String)
    (baseMeta : Metadata) : ℕ → ℤ → ℕ → Option (List DocumentChunk)
  | 0, start, _ => if start < (text.length : ℤ) then none else some []
  | fuel + 1, start, chunkIndex =>
    if start < (text.length : ℤ) then
      let endC := cutEnd text start chunkChars
      let chunkText := pyStrip (pySlice text start endC)
      let emitted : Option DocumentChunk :=
        if chunkText = [] then none
        else some ⟨docId ++ "_chunk_" ++ toString chunkIndex, String.mk chunkText,
          ⟨baseMeta, chunkIndex, start, endC⟩⟩
      let chunkIndex' := if chunkText = [] then chunkIndex else chunkIndex + 1
      let start' := endC - overlapChars
      let start'' := if start' ≤ 0 ∧ 0 < chunkIndex' then endC else start'
      match chunkLoop chunkChars overlapChars text docId baseMeta fuel start'' chunkIndex' with
      | none => none
      | some rest =>
        match emitted with
        | none => some rest
        | some c => some (c :: rest)
    else some []

/-- `DocumentProcessor._create_chunks`: empty-after-strip text yields no
chunks; otherwise whitespace is normalised and the sliding window loop runs
(with character window `chunk_size * 4` and overlap `chunk_overlap * 4`,
the `chars_per_token = 4` estimate of the source). The fuel
`length + 1` is sufficient whenever the loop terminates; see the
termination theorem. -/
def createChunks (chunk_size chunk_overlap : ℕ) (text : String)
    (docId : String) (baseMeta : Metadata) : Option (List DocumentChunk) :=
  if pyStrip text.toList = [] then some []
  else
    let t := normalizeWs text.toList
    chunkLoop (chunk_size * 4) (chunk_overlap * 4) t docId baseMeta
      (t.length + 1) 0 0

/-- Modelled from the spec's words, for comparison with `findSnap`: "search
backward within the last ~20% of the window for the nearest sentence
terminator (`. `, `! `, `? `, newline)" — i.e. among all four separators,
the one whose occurrence ends rightmost wins. -/
def specFindSnap (region : List Char) : List (List Char) → Option ℕ
  | [] => none
  | sep :: rest =>
    let here := (rfind region sep).map (· + sep.length)
    match here, specFindSnap region rest with
    | some a, some b => some (max a b)
    | some a, none => some a
    | none, r => r

/-- Modelled from the spec: `cutEnd` with the nearest-terminator rule. -/
def specCutEnd (text : List Char) (start : ℤ) (chunkChars : ℕ) : ℤ :=
  if start + (chunkChars : ℤ) < (text.length : ℤ) then
    match specFindSnap
        (pySlice text (start + (eightyPercent chunkChars : ℕ))
          (start + (chunkChars : ℤ)))
        chunkSeps with
    | some k => start + (eightyPercent chunkChars : ℕ) + k
    | none => start + (chunkChars : ℤ)
  else start + (chunkChars : ℤ)

/-- Modelled from the spec: the chunking loop with the nearest-terminator
cut rule. -/
def specChunkLoop (chunkChars overlapChars : ℕ) (text : List Char)
    (docId : String) (baseMeta : Metadata) : ℕ → ℤ → ℕ →
    Option (List DocumentChunk)
  | 0, start, _ => if start < (text.length : ℤ) then none else some []
  | fuel + 1, start, chunkIndex =>
    if start < (text.length : ℤ) then
      let endC := specCutEnd text start chunkChars
      let chunkText := pyStrip (pySlice text start endC)
      let emitted : Option DocumentChunk :=
        if chunkText = [] then none
        else some ⟨docId ++ "_chunk_" ++ toString chunkIndex, String.mk chunkText,
          ⟨baseMeta, chunkIndex, start, endC⟩⟩
      let chunkIndex' := if chunkText = [] then chunkIndex else chunkIndex + 1
      let start' := endC - overlapChars
      let start'' := if start' ≤ 0 ∧ 0 < chunkIndex' then endC else start'
      match specChunkLoop chunkChars overlapChars text docId baseMeta fuel start'' chunkIndex' with
      | none => none
      | some rest =>
        match emitted with
        | none => some rest
        | some c => some (c :: rest)
    else some []

/-- Modelled from the spec: `_create_chunks` with the nearest-terminator
cut rule. -/
def specCreateChunks (chunk_size chunk_overlap : ℕ) (text : String)
    (docId : String) (baseMeta : Metadata) : Option (List DocumentChunk) :=
  if pyStrip text.toList = [] then some []
  else
    let t := normalizeWs text.toList
    specChunkLoop (chunk_size * 4) (chunk_overlap * 4) t docId baseMeta
      (t.length + 1) 0 0

/-- The inner loop of `get_document_hash` over one collection's metadata
list: skip the sentinel, and on the first record whose filename matches,
return its (possibly absent) `content_hash` — `some h` models `return
meta.get("content_hash")`, `none` models falling through the loop. -/
def scanMetas (filename : String) : List Metadata → Option (Option String)
  | [] => none
  | m :: ms =>
    if m.type_ = some "kb_metadata" then scanMetas filename ms
    else if m.filename = some filename then some m.content_hash
    else scanMetas filename ms

/-- The provider loop of `get_document_hash`: `local` first, then
`openai`; a collection whose read fails (`metasOf = none`) is skipped. -/
def providerScan (e : RAGEngine) (kb filename : String) :
    List String → Option String
  | [] => none
  | p :: ps =>
    match e.metasOf kb p with
    | none => providerScan e kb filename ps
    | some ms =>
      match scanMetas filename ms with
      | some h => h
      | none => providerScan e kb filename ps

/-- `RAGEngine.get_document_hash(kb_id, filename)`. -/
def RAGEngine.get_document_hash (e : RAGEngine) (kb filename : String) :
    Option String :=
  providerScan e kb filename ["local", "openai"]

/-- `RAGEngine.needs_reembedding(kb_id, filename, new_content_hash)`:
re-embed when no stored hash is found or the stored hash differs. -/
def RAGEngine.needs_reembedding (e : RAGEngine) (kb filename newHash : String) :
    Bool :=
  match e.get_document_hash kb filename with
  | none => true
  | some existing => !(existing == newHash)

/-- Is a metadata record a non-sentinel record for the given filename
(i.e. one `get_document_hash` can return a hash from)? -/
def relFilter (filename : String) (m : Metadata) : Bool :=
  !(m.type_ == some "kb_metadata") && (m.filename == some filename)

/-- All non-sentinel metadata records with the given filename that are
visible in either provider collection (the records `get_document_hash` can
encounter). -/
def relevantMetas (e : RAGEngine) (kb filename : String) : List Metadata :=
  ((e.metasOf kb "local").getD [] ++ (e.metasOf kb "openai").getD []).filter
    (relFilter filename)

/-- The per-provider success record `add_document` returns, plus the
`(chunk_id, text)` pairs handed to `BM25Index.add_documents` (empty when
the lexical index was not updated). -/
structure AddResult where
  loc : Bool
  openai : Bool
  bm25Added : List (String × String)
  deriving DecidableEq, Repr

/-- `RAGEngine.add_document`: no chunks means nothing happens; otherwise
each provider's partition is written when its embedding leg succeeded and
its `collection.add` did not raise, and the BM25 index receives all chunks
exactly when at least one provider stored the document. -/
def RAGEngine.add_document (e : RAGEngine) (doc : ProcessedDocument) :
    AddResult :=
  if doc.chunks = [] then ⟨false, false, []⟩
  else
    let kb := doc.metadata.knowledge_base.getD "default"
    let locOk := e.dualLocalOk && e.storeOk kb "local"
    let openaiOk := e.dualOpenaiOk && e.storeOk kb "openai"
    let added := if locOk || openaiOk then
      doc.chunks.map (fun c => (c.id, c.content)) else []
    ⟨locOk, openaiOk, added⟩

deriving instance DecidableEq for Except

/-- Metadata of an ordinary ingested chunk with a filename and hash. -/
def metaDoc (f h : String) : Metadata :=
  { filename := some f, content_hash := some h }

/-- Metadata of the sentinel record `create_knowledge_base` writes. -/
def sentinelMeta : Metadata := { type_ := some "kb_metadata" }

/-- A minimal engine state every concrete example starts from: one
knowledge base, default-like configuration, all collaborators absent. -/
def engBase : RAGEngine where
  top_k_api := 5
  similarity_threshold := 1/2
  allKbs := ["kb1"]
  emb := fun _ => some ()
  vecQuery := fun _ _ => none
  bm25Of := fun _ => none
  metaOf := fun _ => none
  legacy := fun _ => none
  metasOf := fun _ _ => none
  dualLocalOk := true
  dualOpenaiOk := true
  storeOk := fun _ _ => true

/-- Engine with one vector hit and one BM25 document (the same chunk). -/
def engW1 : RAGEngine :=
  { engBase with
    vecQuery := fun _ kb =>
      if kb = "kb1" then some [⟨"c1", "doc1", {}, 1/4⟩] else none
    bm25Of := fun kb =>
      if kb = "kb1" then some ⟨some ⟨fun _ => [1]⟩, ["c1"], ["doc1"]⟩ else none
    metaOf := fun kb => if kb = "kb1" then some (fun _ => none) else none }

/-- Engine with two vector hits and one distinct BM25 document. -/
def engW2 : RAGEngine :=
  { engBase with
    vecQuery := fun _ kb =>
      if kb = "kb1" then
        some [⟨"v1", "d1", {}, 0⟩, ⟨"v2", "d2", {}, 1/4⟩]
      else none
    bm25Of := fun kb =>
      if kb = "kb1" then
        some ⟨some ⟨fun _ => [2]⟩, ["b1"], ["hund doc"]⟩
      else none
    metaOf := fun kb => if kb = "kb1" then some (fun _ => none) else none }

/-- Engine whose query embedding fails but whose BM25 leg works. -/
def engC3 : RAGEngine := { engW1 with emb := fun _ => none }

/-- Engine whose legacy collection holds the sentinel record (as every
provider partition does by construction), plus a vector partition serving
the sentinel followed by an ordinary chunk. -/
def engC4 : RAGEngine :=
  { engBase with
    legacy := fun kb =>
      if kb = "kb1" then
        some [⟨"__kb_metadata__", "Knowledge Base Metadata", sentinelMeta⟩,
              ⟨"c1", "ein Metadata Dokument", metaDoc "f.pdf" "h1"⟩]
      else none
    vecQuery := fun _ kb =>
      if kb = "kb1" then
        some [⟨"__kb_metadata__", "Knowledge Base Metadata", sentinelMeta, 0⟩,
              ⟨"c1", "ein Metadata Dokument", metaDoc "f.pdf" "h1", 1/4⟩]
      else none }

/-- Engine with a consistently hashed document `f.pdf` in both provider
collections. -/
def engC6 : RAGEngine :=
  { engBase with
    metasOf := fun kb p =>
      if kb = "kb1" then
        if p = "local" then some [sentinelMeta, metaDoc "f.pdf" "h1"]
        else if p = "openai" then some [metaDoc "f.pdf" "h1"]
        else none
      else none }

/-- A two-chunk processed document targeting `kb1`. -/
def docW7 : ProcessedDocument where
  id := "d1"
  filename := "f.pdf"
  file_type := ".pdf"
  chunks :=
    [⟨"d1_chunk_0", "erster Teil", ⟨metaDoc "f.pdf" "h1", 0, 0, 11⟩⟩,
     ⟨"d1_chunk_1", "zweiter Teil", ⟨metaDoc "f.pdf" "h1", 1, 11, 23⟩⟩]
  metadata := { metaDoc "f.pdf" "h1" with knowledge_base := some "kb1" }
  raw_text := "erster Teil zweiter Teil"

theorem insertDesc_perm (val : α → ℚ) (x : α) (l : List α) :
    (insertDesc val x l).Perm (x :: l) := by
  induction l with
  | nil => exact List.Perm.refl _
  | cons y ys ih =>
    rw [insertDesc]
    by_cases h : val y < val x
    · rw [if_pos h]
    · rw [if_neg h]
      exact (ih.cons y).trans (List.Perm.swap x y ys)

theorem foldl_insertDesc_perm (val : α → ℚ) (l : List α) :
    ∀ acc : List α,
      (l.foldl (fun a x => insertDesc val x a) acc).Perm (acc ++ l) := by
  induction l with
  | nil => intro acc; simp
  | cons x xs ih =>
    intro acc
    simp only [List.foldl_cons]
    refine (ih (insertDesc val x acc)).trans ?_
    refine (List.Perm.append_right xs (insertDesc_perm val x acc)).trans ?_
    exact List.perm_middle.symm

theorem sortDesc_perm (val : α → ℚ) (l : List α) : (sortDesc val l).Perm l := by
  simpa [sortDesc] using foldl_insertDesc_perm val l []

theorem insertDesc_pairwise (val : α → ℚ) (x : α) (l : List α)
    (h : l.Pairwise (fun a b => val b ≤ val a)) :
    (insertDesc val x l).Pairwise (fun a b => val b ≤ val a) := by
  induction l with
  | nil => simp [insertDesc]
  | cons y ys ih =>
    rw [insertDesc]
    rcases List.pairwise_cons.mp h with ⟨hy, hys⟩
    by_cases hc : val y < val x
    · rw [if_pos hc]
      refine List.pairwise_cons.mpr ⟨?_, h⟩
      intro b hb
      rcases List.mem_cons.mp hb with rfl | hb
      · exact le_of_lt hc
      · exact le_trans (hy b hb) (le_of_lt hc)
    · rw [if_neg hc]
      refine List.pairwise_cons.mpr ⟨?_, ih hys⟩
      intro b hb
      rcases List.mem_cons.mp ((insertDesc_perm val x ys).mem_iff.mp hb) with rfl | hb
      · exact le_of_not_lt hc
      · exact hy b hb

theorem foldl_insertDesc_pairwise (val : α → ℚ) (l : List α) :
    ∀ acc : List α, acc.Pairwise (fun a b => val b ≤ val a) →
      (l.foldl (fun a x => insertDesc val x a) acc).Pairwise
        (fun a b => val b ≤ val a) := by
  induction l with
  | nil => intro acc h; simpa using h
  | cons x xs ih =>
    intro acc h
    simp only [List.foldl_cons]
    exact ih _ (insertDesc_pairwise val x acc h)

theorem sortDesc_pairwise (val : α → ℚ) (l : List α) :
    (sortDesc val l).Pairwise (fun a b => val b ≤ val a) :=
  foldl_insertDesc_pairwise val l [] (List.Pairwise.nil)

theorem sortDesc_head_max (val : α → ℚ) (l : List α) (x : α)
    (hx : (sortDesc val l).head? = some x) :
    x ∈ l ∧ ∀ y ∈ l, val y ≤ val x := by
  obtain ⟨t, ht⟩ : ∃ t, sortDesc val l = x :: t := by
    cases hs : sortDesc val l with
    | nil => rw [hs] at hx; simp at hx
    | cons z t => rw [hs] at hx; simp at hx; exact ⟨t, by rw [hx]⟩
  have hperm := sortDesc_perm val l
  rw [ht] at hperm
  constructor
  · exact hperm.mem_iff.mp (List.mem_cons_self x t)
  · intro y hy
    rcases List.mem_cons.mp (hperm.symm.mem_iff.mp hy) with rfl | hyt
    · exact le_refl _
    · have := sortDesc_pairwise val l
      rw [ht] at this
      exact (List.pairwise_cons.mp this).1 y hyt

theorem foldl_max_init_le (l : List (String × ℚ)) :
    ∀ b : ℚ, b ≤ l.foldl (fun m q => max m q.2) b := by
  induction l with
  | nil => intro b; simp
  | cons q l ih =>
    intro b
    simp only [List.foldl_cons]
    exact le_trans (le_max_left b q.2) (ih _)

theorem foldl_max_mem_le (l : List (String × ℚ)) :
    ∀ b : ℚ, ∀ p ∈ l, p.2 ≤ l.foldl (fun m q => max m q.2) b := by
  induction l with
  | nil => intro b p hp; simp at hp
  | cons q l ih =>
    intro b p hp
    simp only [List.foldl_cons]
    rcases List.mem_cons.mp hp with rfl | hp
    · exact le_trans (le_max_right b p.2) (foldl_max_init_le l _)
    · exact ih _ p hp

theorem foldl_max_le (l : List (String × ℚ)) :
    ∀ b c : ℚ, b ≤ c → (∀ p ∈ l, p.2 ≤ c) →
      l.foldl (fun m q => max m q.2) b ≤ c := by
  induction l with
  | nil => intro b c hb _; simpa using hb
  | cons q l ih =>
    intro b c hb hl
    simp only [List.foldl_cons]
    refine ih _ c (max_le hb (hl q (List.mem_cons_self q l))) ?_
    intro p hp
    exact hl p (List.mem_cons_of_mem q hp)

theorem foldl_max_attained (l : List (String × ℚ)) :
    ∀ b : ℚ, l.foldl (fun m q => max m q.2) b = b ∨
      ∃ p ∈ l, l.foldl (fun m q => max m q.2) b = p.2 := by
  induction l with
  | nil => intro b; left; rfl
  | cons q l ih =>
    intro b
    simp only [List.foldl_cons]
    rcases ih (max b q.2) with h | ⟨p, hp, h⟩
    · rcases max_choice b q.2 with hm | hm
      · left; rw [h, hm]
      · right; exact ⟨q, List.mem_cons_self q l, by rw [h, hm]⟩
    · right; exact ⟨p, List.mem_cons_of_mem q hp, h⟩

theorem le_maxScoreD (d : List (String × ℚ)) (p : String × ℚ) (hp : p ∈ d) :
    p.2 ≤ maxScoreD d := by
  cases d with
  | nil => simp at hp
  | cons q l =>
    rw [maxScoreD]
    rcases List.mem_cons.mp hp with rfl | hp
    · exact foldl_max_init_le l _
    · exact foldl_max_mem_le l _ p hp

theorem maxScoreD_le (d : List (String × ℚ)) (c : ℚ) (hd : d ≠ [])
    (h : ∀ p ∈ d, p.2 ≤ c) : maxScoreD d ≤ c := by
  cases d with
  | nil => exact absurd rfl hd
  | cons q l =>
    rw [maxScoreD]
    refine foldl_max_le l _ c (h q (List.mem_cons_self q l)) ?_
    intro p hp
    exact h p (List.mem_cons_of_mem q hp)

theorem maxScoreD_mem (d : List (String × ℚ)) (hd : d ≠ []) :
    ∃ p ∈ d, p.2 = maxScoreD d := by
  cases d with
  | nil => exact absurd rfl hd
  | cons q l =>
    rw [maxScoreD]
    rcases foldl_max_attained l q.2 with h | ⟨p, hp, h⟩
    · exact ⟨q, List.mem_cons_self q l, h.symm⟩
    · exact ⟨p, List.mem_cons_of_mem q hp, h.symm⟩

theorem mem_dictKeys_updScore (d : List (String × ℚ)) (id j : String) (v : ℚ) :
    j ∈ dictKeys (updScore d id v) ↔ j ∈ dictKeys d ∨ j = id := by
  induction d with
  | nil => simp [updScore, dictKeys]
  | cons p rest ih =>
    rw [updScore]
    by_cases h : p.1 = id
    · rw [if_pos h]
      simp only [dictKeys, List.map_cons]
      subst h
      constructor
      · intro hm; exact Or.inl hm
      · intro hm
        rcases hm with hm | rfl
        · exact hm
        · exact List.mem_cons_self _ _
    · rw [if_neg h]
      simp only [dictKeys, List.map_cons, List.mem_cons] at *
      constructor
      · intro hm
        rcases hm with rfl | hm
        · exact Or.inl (Or.inl rfl)
        · rcases ih.mp hm with hm | hm
          · exact Or.inl (Or.inr hm)
          · exact Or.inr hm
      · intro hm
        rcases hm with (rfl | hm) | rfl
        · exact Or.inl rfl
        · exact Or.inr (ih.mpr (Or.inl hm))
        · exact Or.inr (ih.mpr (Or.inr rfl))

theorem nodup_dictKeys_updScore (d : List (String × ℚ)) (id : String) (v : ℚ)
    (h : (dictKeys d).Nodup) : (dictKeys (updScore d id v)).Nodup := by
  induction d with
  | nil => simp [updScore, dictKeys]
  | cons p rest ih =>
    rw [updScore]
    simp only [dictKeys, List.map_cons, List.nodup_cons] at h
    by_cases hp : p.1 = id
    · rw [if_pos hp]
      simp only [dictKeys, List.map_cons, List.nodup_cons]
      exact h
    · rw [if_neg hp]
      simp only [dictKeys, List.map_cons, List.nodup_cons]
      refine ⟨?_, ih h.2⟩
      intro hm
      rcases (mem_dictKeys_updScore rest id p.1 v).mp hm with hm | hm
      · exact h.1 hm
      · exact hp hm

theorem lookupScore_updScore (d : List (String × ℚ)) (id j : String) (v : ℚ) :
    lookupScore (updScore d id v) j =
      lookupScore d j + (if j = id then v else 0) := by
  induction d with
  | nil =>
    simp only [updScore, lookupScore, List.find?]
    by_cases h : j = id
    · subst h; simp
    · rw [if_neg h]
      have : ((id == j)) = false := by
        simp [beq_iff_eq]; exact fun hc => h hc.symm
      simp [this]
  | cons p rest ih =>
    rw [updScore]
    by_cases hp : p.1 = id
    · rw [if_pos hp]
      by_cases hj : j = id
      · subst hj; subst hp
        simp [lookupScore, List.find?]
      · have hpj : (p.1 == j) = false := by
          simp [beq_iff_eq]; rw [hp]; exact fun hc => hj hc.symm
        simp [lookupScore, List.find?, hpj, if_neg hj]
    · rw [if_neg hp]
      by_cases hpj : p.1 = j
      · have h1 : (p.1 == j) = true := by simp [beq_iff_eq, hpj]
        have hj : ¬(j = id) := by rw [← hpj]; exact fun hc => hp hc
        simp [lookupScore, List.find?, h1, if_neg hj]
      · have h1 : (p.1 == j) = false := by simp [beq_iff_eq, hpj]
        have := ih
        simp only [lookupScore, List.find?, h1] at *
        exact this

theorem pair_snd_eq_lookupScore (d : List (String × ℚ))
    (h : (dictKeys d).Nodup) (p : String × ℚ) (hp : p ∈ d) :
    p.2 = lookupScore d p.1 := by
  induction d with
  | nil => simp at hp
  | cons q rest ih =>
    simp only [dictKeys, List.map_cons, List.nodup_cons] at h
    rcases List.mem_cons.mp hp with rfl | hp
    · simp [lookupScore, List.find?]
    · have hq : (q.1 == p.1) = false := by
        rw [beq_eq_false_iff_ne]
        intro hc
        exact h.1 (hc ▸ (List.mem_map.mpr ⟨p, hp, rfl⟩))
      simp only [lookupScore, List.find?, hq]
      exact ih h.2 hp

theorem mem_dictKeys_iff_find (d : List (String × ℚ)) (j : String) :
    j ∈ dictKeys d ↔ (d.find? (fun p => p.1 == j)).isSome := by
  induction d with
  | nil => simp [dictKeys, List.find?]
  | cons p rest ih =>
    by_cases hp : p.1 = j
    · have h1 : (p.1 == j) = true := by simp [beq_iff_eq, hp]
      simp [dictKeys, List.find?, h1, hp]
    · have h1 : (p.1 == j) = false := by simp [beq_iff_eq, hp]
      simp only [dictKeys, List.map_cons, List.mem_cons, List.find?, h1]
      rw [← ih]
      simp only [dictKeys]
      constructor
      · intro h; rcases h with h | h
        · exact absurd h.symm hp
        · exact h
      · exact Or.inr

theorem lookupScore_rrfAccumFrom (w : ℚ) (k : ℕ) (res : List SearchResult) :
    ∀ (r0 : ℕ) (d : List (String × ℚ)) (j : String),
      lookupScore (rrfAccumFrom w k r0 res d) j =
        lookupScore d j + legCumFrom w k r0 res j := by
  induction res with
  | nil => intro r0 d j; simp [rrfAccumFrom, legCumFrom]
  | cons x xs ih =>
    intro r0 d j
    rw [rrfAccumFrom, legCumFrom, ih, lookupScore_updScore]
    by_cases h : x.chunk_id = j
    · rw [if_pos h, if_pos h.symm]; ring
    · rw [if_neg h, if_neg (fun hc => h hc.symm)]; ring

theorem mem_dictKeys_rrfAccumFrom (w : ℚ) (k : ℕ) (res : List SearchResult) :
    ∀ (r0 : ℕ) (d : List (String × ℚ)) (j : String),
      j ∈ dictKeys (rrfAccumFrom w k r0 res d) ↔
        j ∈ dictKeys d ∨ j ∈ resultIds res := by
  induction res with
  | nil => intro r0 d j; simp [rrfAccumFrom, resultIds]
  | cons x xs ih =>
    intro r0 d j
    rw [rrfAccumFrom, ih]
    rw [mem_dictKeys_updScore]
    simp only [resultIds, List.map_cons, List.mem_cons]
    constructor
    · rintro ((h | h) | h)
      · exact Or.inl h
      · exact Or.inr (Or.inl h)
      · exact Or.inr (Or.inr h)
    · rintro (h | h | h)
      · exact Or.inl (Or.inl h)
      · exact Or.inl (Or.inr h)
      · exact Or.inr h

theorem nodup_dictKeys_rrfAccumFrom (w : ℚ) (k : ℕ) (res : List SearchResult) :
    ∀ (r0 : ℕ) (d : List (String × ℚ)), (dictKeys d).Nodup →
      (dictKeys (rrfAccumFrom w k r0 res d)).Nodup := by
  induction res with
  | nil => intro r0 d h; exact h
  | cons x xs ih =>
    intro r0 d h
    exact ih _ _ (nodup_dictKeys_updScore d x.chunk_id _ h)

theorem legCumFrom_of_not_mem (w : ℚ) (k : ℕ) (res : List SearchResult) :
    ∀ (r0 : ℕ) (j : String), j ∉ resultIds res →
      legCumFrom w k r0 res j = 0 := by
  induction res with
  | nil => intro r0 j _; rfl
  | cons x xs ih =>
    intro r0 j hj
    simp only [resultIds, List.map_cons, List.mem_cons, not_or] at hj
    rw [legCumFrom, if_neg (fun hc => hj.1 hc.symm), ih _ _ hj.2]
    ring

theorem legCumFrom_zero_weight (k : ℕ) (res : List SearchResult) :
    ∀ (r0 : ℕ) (j : String), legCumFrom 0 k r0 res j = 0 := by
  induction res with
  | nil => intro r0 j; rfl
  | cons x xs ih =>
    intro r0 j
    rw [legCumFrom, ih]
    by_cases h : x.chunk_id = j
    · rw [if_pos h, zero_div]; ring
    · rw [if_neg h]; ring

theorem legCumFrom_nonneg (w : ℚ) (k : ℕ) (res : List SearchResult)
    (hw : 0 ≤ w) : ∀ (r0 : ℕ) (j : String), 0 ≤ legCumFrom w k r0 res j := by
  induction res with
  | nil => intro r0 j; exact le_refl 0
  | cons x xs ih =>
    intro r0 j
    rw [legCumFrom]
    have h1 : (0 : ℚ) ≤ (if x.chunk_id = j then w / ((k : ℚ) + r0 + 1) else 0) := by
      split
      · exact div_nonneg hw (by positivity)
      · exact le_refl 0
    exact add_nonneg h1 (ih _ _)

theorem legCumFrom_of_nodup (w : ℚ) (k : ℕ) (res : List SearchResult) :
    ∀ (r0 : ℕ) (j : String), (resultIds res).Nodup → j ∈ resultIds res →
      legCumFrom w k r0 res j =
        w / ((k : ℚ) + r0 + (resultIds res).indexOf j + 1) := by
  induction res with
  | nil => intro r0 j _ hj; simp [resultIds] at hj
  | cons x xs ih =>
    intro r0 j hnd hj
    simp only [resultIds, List.map_cons, List.nodup_cons] at hnd
    by_cases h : x.chunk_id = j
    · rw [legCumFrom, if_pos h]
      have hnj : j ∉ resultIds xs := h ▸ hnd.1
      rw [legCumFrom_of_not_mem w k xs _ _ hnj]
      simp only [resultIds, List.map_cons]
      rw [List.indexOf_cons]
      have hb : (x.chunk_id == j) = true := by rw [beq_iff_eq]; exact h
      simp only [hb, cond_true]
      push_cast
      ring
    · rw [legCumFrom, if_neg h]
      have hjxs : j ∈ resultIds xs := by
        simp only [resultIds, List.map_cons, List.mem_cons] at hj
        rcases hj with rfl | hj
        · exact absurd rfl h
        · exact hj
      rw [ih (r0 + 1) j hnd.2 hjxs]
      simp only [resultIds, List.map_cons]
      rw [List.indexOf_cons]
      have hb : (x.chunk_id == j) = false := by
        rw [beq_eq_false_iff_ne]; exact h
      simp only [hb, cond_false]
      push_cast
      ring

theorem mem_map_fst_iff_find {β : Type} (d : List (String × β)) (j : String) :
    j ∈ d.map Prod.fst ↔ (d.find? (fun p => p.1 == j)).isSome := by
  induction d with
  | nil => simp [List.find?]
  | cons p rest ih =>
    by_cases hp : p.1 = j
    · have h1 : (p.1 == j) = true := by rw [beq_iff_eq]; exact hp
      simp [List.find?, h1, hp]
    · have h1 : (p.1 == j) = false := by rw [beq_eq_false_iff_ne]; exact hp
      simp only [List.map_cons, List.mem_cons, List.find?, h1]
      rw [← ih]
      constructor
      · intro h; rcases h with h | h
        · exact absurd h.symm hp
        · exact h
      · exact Or.inr

theorem lookupData_isSome_iff (rd : List (String × SearchResult)) (j : String) :
    (lookupData rd j).isSome ↔ j ∈ rd.map Prod.fst := by
  rw [mem_map_fst_iff_find]
  unfold lookupData
  cases rd.find? (fun p => p.1 == j) <;> simp

theorem mem_map_fst_updData (rd : List (String × SearchResult))
    (r : SearchResult) (j : String) :
    j ∈ (updData rd r).map Prod.fst ↔ j ∈ rd.map Prod.fst ∨ j = r.chunk_id := by
  induction rd with
  | nil => simp [updData]
  | cons p rest ih =>
    rw [updData]
    by_cases hp : p.1 = r.chunk_id
    · rw [if_pos hp]
      simp only [List.map_cons, List.mem_cons]
      constructor
      · intro h; exact Or.inl h
      · intro h
        rcases h with (h | h) | rfl
        · exact Or.inl h
        · exact Or.inr h
        · exact Or.inl (by rw [hp])
    · rw [if_neg hp]
      simp only [List.map_cons, List.mem_cons]
      rw [ih]
      tauto

theorem mem_map_fst_insData (rd : List (String × SearchResult))
    (r : SearchResult) (j : String) :
    j ∈ (insData rd r).map Prod.fst ↔ j ∈ rd.map Prod.fst ∨ j = r.chunk_id := by
  unfold insData
  by_cases h : (rd.find? (fun p => p.1 == r.chunk_id)).isSome
  · rw [if_pos h]
    have hm : r.chunk_id ∈ rd.map Prod.fst := (mem_map_fst_iff_find rd _).mpr h
    constructor
    · exact Or.inl
    · intro hj
      rcases hj with hj | rfl
      · exact hj
      · exact hm
  · rw [if_neg h]
    simp

theorem pairInv_updData (rd : List (String × SearchResult)) (r : SearchResult)
    (h : ∀ p ∈ rd, (p.2).chunk_id = p.1) :
    ∀ p ∈ updData rd r, (p.2).chunk_id = p.1 := by
  induction rd with
  | nil =>
    intro p hp
    simp only [updData, List.mem_singleton] at hp
    subst hp; rfl
  | cons q rest ih =>
    intro p hp
    rw [updData] at hp
    by_cases hq : q.1 = r.chunk_id
    · rw [if_pos hq] at hp
      rcases List.mem_cons.mp hp with rfl | hp
      · exact hq.symm
      · exact h p (List.mem_cons_of_mem q hp)
    · rw [if_neg hq] at hp
      rcases List.mem_cons.mp hp with rfl | hp
      · exact h _ (List.mem_cons_self _ _)
      · exact ih (fun x hx => h x (List.mem_cons_of_mem q hx)) p hp

theorem pairInv_insData (rd : List (String × SearchResult)) (r : SearchResult)
    (h : ∀ p ∈ rd, (p.2).chunk_id = p.1) :
    ∀ p ∈ insData rd r, (p.2).chunk_id = p.1 := by
  intro p hp
  unfold insData at hp
  split at hp
  · exact h p hp
  · rcases List.mem_append.mp hp with hp | hp
    · exact h p hp
    · simp only [List.mem_singleton] at hp
      subst hp; rfl

theorem pairInv_foldl_updData (vres : List SearchResult) :
    ∀ rd, (∀ p ∈ rd, (p.2).chunk_id = p.1) →
      ∀ p ∈ vres.foldl updData rd, (p.2).chunk_id = p.1 := by
  induction vres with
  | nil => intro rd h; exact h
  | cons x xs ih =>
    intro rd h
    exact ih _ (pairInv_updData rd x h)

theorem pairInv_foldl_insData (bres : List SearchResult) :
    ∀ rd, (∀ p ∈ rd, (p.2).chunk_id = p.1) →
      ∀ p ∈ bres.foldl insData rd, (p.2).chunk_id = p.1 := by
  induction bres with
  | nil => intro rd h; exact h
  | cons y ys ih =>
    intro rd h
    exact ih _ (pairInv_insData rd y h)

theorem pairInv_buildData (vres bres : List SearchResult) :
    ∀ p ∈ buildData vres bres, (p.2).chunk_id = p.1 :=
  pairInv_foldl_insData bres _
    (pairInv_foldl_updData vres [] (by intro p hp; simp at hp))

theorem mem_map_fst_foldl_updData (vres : List SearchResult) :
    ∀ (rd : List (String × SearchResult)) (j : String),
      j ∈ (vres.foldl updData rd).map Prod.fst ↔
        j ∈ rd.map Prod.fst ∨ j ∈ resultIds vres := by
  induction vres with
  | nil => intro rd j; simp [resultIds]
  | cons x xs ih =>
    intro rd j
    simp only [List.foldl_cons]
    rw [ih]
    rw [mem_map_fst_updData]
    simp only [resultIds, List.map_cons, List.mem_cons]
    tauto

theorem mem_map_fst_foldl_insData (bres : List SearchResult) :
    ∀ (rd : List (String × SearchResult)) (j : String),
      j ∈ (bres.foldl insData rd).map Prod.fst ↔
        j ∈ rd.map Prod.fst ∨ j ∈ resultIds bres := by
  induction bres with
  | nil => intro rd j; simp [resultIds]
  | cons y ys ih =>
    intro rd j
    simp only [List.foldl_cons]
    rw [ih]
    rw [mem_map_fst_insData]
    simp only [resultIds, List.map_cons, List.mem_cons]
    tauto

theorem mem_map_fst_buildData (vres bres : List SearchResult) (j : String) :
    j ∈ (buildData vres bres).map Prod.fst ↔
      j ∈ resultIds vres ∨ j ∈ resultIds bres := by
  unfold buildData
  rw [mem_map_fst_foldl_insData, mem_map_fst_foldl_updData]
  simp

theorem lookupData_spec (rd : List (String × SearchResult)) (j : String)
    (r : SearchResult) (h : lookupData rd j = some r) :
    ∃ q ∈ rd, q.1 = j ∧ q.2 = r := by
  unfold lookupData at h
  cases hf : rd.find? (fun p => p.1 == j) with
  | none => rw [hf] at h; cases h
  | some q =>
    rw [hf] at h
    simp only [Option.map_some'] at h
    have hpq := List.find?_some hf
    exact ⟨q, List.mem_of_find?_eq_some hf, beq_iff_eq.mp hpq, Option.some.inj h⟩

theorem normLoop_ok_map_id (rd : List (String × SearchResult)) (m : ℚ)
    (hinv : ∀ q ∈ rd, (q.2).chunk_id = q.1) :
    ∀ (l : List (String × ℚ)) (rs : List SearchResult),
      normLoop rd m l = .ok rs → resultIds rs = l.map Prod.fst := by
  intro l
  induction l with
  | nil =>
    intro rs h
    rw [normLoop] at h
    cases h
    rfl
  | cons p ps ih =>
    intro rs h
    rw [normLoop] at h
    cases hl : lookupData rd p.1 with
    | none => simp only [hl] at h; cases h
    | some r =>
      simp only [hl] at h
      by_cases hm : m = 0
      · rw [if_pos hm] at h; cases h
      · rw [if_neg hm] at h
        cases hrec : normLoop rd m ps with
        | error e => simp only [hrec] at h; cases h
        | ok rest =>
          simp only [hrec] at h
          cases h
          obtain ⟨q, hq, hq1, hq2⟩ := lookupData_spec rd p.1 r hl
          have hid : r.chunk_id = p.1 := by rw [← hq2, hinv q hq, hq1]
          simp only [resultIds, List.map_cons]
          rw [hid]
          congr 1
          exact ih rest hrec

theorem normLoop_ok_map_score (rd : List (String × SearchResult)) (m : ℚ) :
    ∀ (l : List (String × ℚ)) (rs : List SearchResult),
      normLoop rd m l = .ok rs →
        rs.map SearchResult.score = l.map (fun p => p.2 / m) := by
  intro l
  induction l with
  | nil =>
    intro rs h
    rw [normLoop] at h
    cases h
    rfl
  | cons p ps ih =>
    intro rs h
    rw [normLoop] at h
    cases hl : lookupData rd p.1 with
    | none => simp only [hl] at h; cases h
    | some r =>
      simp only [hl] at h
      by_cases hm : m = 0
      · rw [if_pos hm] at h; cases h
      · rw [if_neg hm] at h
        cases hrec : normLoop rd m ps with
        | error e => simp only [hrec] at h; cases h
        | ok rest =>
          simp only [hrec] at h
          cases h
          simp only [List.map_cons]
          congr 1
          exact ih rest hrec

theorem normLoop_isOk_iff (rd : List (String × SearchResult)) (m : ℚ) :
    ∀ l : List (String × ℚ),
      (∃ rs, normLoop rd m l = .ok rs) ↔
        (l = [] ∨ (m ≠ 0 ∧ ∀ p ∈ l, (lookupData rd p.1).isSome)) := by
  intro l
  induction l with
  | nil =>
    constructor
    · intro _; exact Or.inl rfl
    · intro _; exact ⟨[], rfl⟩
  | cons p ps ih =>
    constructor
    · rintro ⟨rs, h⟩
      rw [normLoop] at h
      cases hl : lookupData rd p.1 with
      | none => simp only [hl] at h; cases h
      | some r =>
        simp only [hl] at h
        by_cases hm : m = 0
        · rw [if_pos hm] at h; cases h
        · rw [if_neg hm] at h
          cases hrec : normLoop rd m ps with
          | error e => simp only [hrec] at h; cases h
          | ok rest =>
            refine Or.inr ⟨hm, ?_⟩
            intro q hq
            rcases List.mem_cons.mp hq with rfl | hq
            · rw [hl]; rfl
            · rcases (ih.mp ⟨rest, hrec⟩) with hnil | ⟨_, hall⟩
              · subst hnil; simp at hq
              · exact hall q hq
    · rintro (h | ⟨hm, hall⟩)
      · cases h
      · have hp := hall p (List.mem_cons_self p ps)
        cases hl : lookupData rd p.1 with
        | none => rw [hl] at hp; simp at hp
        | some r =>
          obtain ⟨rest, hrec⟩ := ih.mpr
            (Or.inr ⟨hm, fun q hq => hall q (List.mem_cons_of_mem p hq)⟩)
          refine ⟨⟨r.chunk_id, r.content, p.2 / m, r.metadata⟩ :: rest, ?_⟩
          rw [normLoop]
          simp only [hl, if_neg hm, hrec]

theorem normLoop_zero_error (rd : List (String × SearchResult)) (m : ℚ)
    (p : String × ℚ) (ps : List (String × ℚ))
    (hm : m = 0) (hp : (lookupData rd p.1).isSome) :
    normLoop rd m (p :: ps) = .error "ZeroDivisionError" := by
  cases hl : lookupData rd p.1 with
  | none => rw [hl] at hp; simp at hp
  | some r =>
    rw [normLoop]
    simp only [hl, if_pos hm]

theorem forall₂_mem_right {α β : Type} {R : α → β → Prop} :
    ∀ {l₁ : List α} {l₂ : List β}, List.Forall₂ R l₁ l₂ →
      ∀ b ∈ l₂, ∃ a ∈ l₁, R a b := by
  intro l₁ l₂ h
  induction h with
  | nil => intro b hb; simp at hb
  | cons hr _ ih =>
    intro b hb
    rcases List.mem_cons.mp hb with rfl | hb
    · exact ⟨_, List.mem_cons_self _ _, hr⟩
    · obtain ⟨a, ha, har⟩ := ih b hb
      exact ⟨a, List.mem_cons_of_mem _ ha, har⟩

theorem normLoop_ok_forall₂ (rd : List (String × SearchResult)) (m : ℚ)
    (hinv : ∀ q ∈ rd, (q.2).chunk_id = q.1) :
    ∀ (l : List (String × ℚ)) (rs : List SearchResult),
      normLoop rd m l = .ok rs →
        List.Forall₂ (fun p r => r.chunk_id = p.1 ∧ r.score = p.2 / m) l rs := by
  intro l
  induction l with
  | nil =>
    intro rs h
    rw [normLoop] at h
    cases h
    exact List.Forall₂.nil
  | cons p ps ih =>
    intro rs h
    rw [normLoop] at h
    cases hl : lookupData rd p.1 with
    | none => simp only [hl] at h; cases h
    | some r =>
      simp only [hl] at h
      by_cases hm : m = 0
      · rw [if_pos hm] at h; cases h
      · rw [if_neg hm] at h
        cases hrec : normLoop rd m ps with
        | error e => simp only [hrec] at h; cases h
        | ok rest =>
          simp only [hrec] at h
          cases h
          obtain ⟨q, hq, hq1, hq2⟩ := lookupData_spec rd p.1 r hl
          have hid : r.chunk_id = p.1 := by rw [← hq2, hinv q hq, hq1]
          exact List.Forall₂.cons ⟨hid, rfl⟩ (ih rest hrec)

theorem lookupScorePair_spec (d : List (String × ℚ)) (j : String)
    (hj : j ∈ dictKeys d) : ∃ q ∈ d, q.1 = j ∧ q.2 = lookupScore d j := by
  have hf := (mem_dictKeys_iff_find d j).mp hj
  cases hfind : d.find? (fun p => p.1 == j) with
  | none => rw [hfind] at hf; simp at hf
  | some q =>
    have hpq := List.find?_some hfind
    refine ⟨q, List.mem_of_find?_eq_some hfind, beq_iff_eq.mp hpq, ?_⟩
    unfold lookupScore
    rw [hfind]
    rfl

theorem head?_take {α : Type} (l : List α) (n : ℕ) (hn : n ≠ 0) :
    (l.take n).head? = l.head? := by
  cases n with
  | zero => exact absurd rfl hn
  | succ n => cases l <;> rfl

theorem dictKeys_rrfDict_nodup (vres bres : List SearchResult) (vw bw : ℚ)
    (k : ℕ) : (dictKeys (rrfDict vres bres vw bw k)).Nodup := by
  unfold rrfDict
  refine nodup_dictKeys_rrfAccumFrom bw k bres 0 _ ?_
  refine nodup_dictKeys_rrfAccumFrom vw k vres 0 _ ?_
  simp [dictKeys]

theorem mem_dictKeys_rrfDict (vres bres : List SearchResult) (vw bw : ℚ)
    (k : ℕ) (j : String) :
    j ∈ dictKeys (rrfDict vres bres vw bw k) ↔
      j ∈ resultIds vres ∨ j ∈ resultIds bres := by
  unfold rrfDict
  rw [mem_dictKeys_rrfAccumFrom, mem_dictKeys_rrfAccumFrom]
  simp [dictKeys]

theorem lookupScore_rrfDict (vres bres : List SearchResult) (vw bw : ℚ)
    (k : ℕ) (j : String) :
    lookupScore (rrfDict vres bres vw bw k) j = cumScore vres bres vw bw k j := by
  unfold rrfDict cumScore
  rw [lookupScore_rrfAccumFrom, lookupScore_rrfAccumFrom]
  have h0 : lookupScore [] j = 0 := rfl
  rw [h0]
  ring

theorem hybridFuse_eq_normLoop (vres bres : List SearchResult) (vw bw : ℚ)
    (k tk : ℕ) :
    hybridFuse vres bres vw bw k tk =
      normLoop (buildData vres bres)
        (maxScoreD (rrfDict vres bres vw bw k))
        ((sortDesc Prod.snd (rrfDict vres bres vw bw k)).take tk) := rfl

theorem mem_rrfDict_of_mem_take (vres bres : List SearchResult) (vw bw : ℚ)
    (k tk : ℕ) (p : String × ℚ)
    (hp : p ∈ (sortDesc Prod.snd (rrfDict vres bres vw bw k)).take tk) :
    p ∈ rrfDict vres bres vw bw k :=
  (sortDesc_perm Prod.snd _).mem_iff.mp (List.mem_of_mem_take hp)

theorem lookupData_isSome_of_mem_take (vres bres : List SearchResult)
    (vw bw : ℚ) (k tk : ℕ) (p : String × ℚ)
    (hp : p ∈ (sortDesc Prod.snd (rrfDict vres bres vw bw k)).take tk) :
    (lookupData (buildData vres bres) p.1).isSome := by
  have hpd := mem_rrfDict_of_mem_take vres bres vw bw k tk p hp
  have hkey : p.1 ∈ dictKeys (rrfDict vres bres vw bw k) :=
    List.mem_map.mpr ⟨p, hpd, rfl⟩
  rw [lookupData_isSome_iff, mem_map_fst_buildData]
  exact (mem_dictKeys_rrfDict vres bres vw bw k p.1).mp hkey

theorem hybridFuse_ok_ids (vres bres : List SearchResult) (vw bw : ℚ)
    (k tk : ℕ) (rs : List SearchResult)
    (h : hybridFuse vres bres vw bw k tk = .ok rs) :
    resultIds rs =
      ((sortDesc Prod.snd (rrfDict vres bres vw bw k)).take tk).map Prod.fst := by
  rw [hybridFuse_eq_normLoop] at h
  exact normLoop_ok_map_id _ _ (pairInv_buildData vres bres) _ rs h

theorem hybridFuse_ok_scores (vres bres : List SearchResult) (vw bw : ℚ)
    (k tk : ℕ) (rs : List SearchResult)
    (h : hybridFuse vres bres vw bw k tk = .ok rs) :
    ∀ r ∈ rs,
      r.score = cumScore vres bres vw bw k r.chunk_id /
        maxScoreD (rrfDict vres bres vw bw k) ∧
      (r.chunk_id ∈ resultIds vres ∨ r.chunk_id ∈ resultIds bres) := by
  intro r hr
  rw [hybridFuse_eq_normLoop] at h
  have hf := normLoop_ok_forall₂ _ _ (pairInv_buildData vres bres) _ rs h
  obtain ⟨p, hp, hid, hsc⟩ := forall₂_mem_right hf r hr
  have hpd := mem_rrfDict_of_mem_take vres bres vw bw k tk p hp
  have hkey : p.1 ∈ dictKeys (rrfDict vres bres vw bw k) :=
    List.mem_map.mpr ⟨p, hpd, rfl⟩
  have hval : p.2 = lookupScore (rrfDict vres bres vw bw k) p.1 :=
    pair_snd_eq_lookupScore _ (dictKeys_rrfDict_nodup vres bres vw bw k) p hpd
  constructor
  · rw [hsc, hval, lookupScore_rrfDict, hid]
  · rw [hid]
    exact (mem_dictKeys_rrfDict vres bres vw bw k p.1).mp hkey

theorem hybridFuse_ok_pairwise (vres bres : List SearchResult) (vw bw : ℚ)
    (k tk : ℕ) (rs : List SearchResult)
    (h : hybridFuse vres bres vw bw k tk = .ok rs) :
    rs.Pairwise (fun a b =>
      cumScore vres bres vw bw k b.chunk_id ≤
        cumScore vres bres vw bw k a.chunk_id) := by
  have hids := hybridFuse_ok_ids vres bres vw bw k tk rs h
  have htake : ((sortDesc Prod.snd (rrfDict vres bres vw bw k)).take tk).Pairwise
      (fun p q => q.2 ≤ p.2) :=
    List.Pairwise.sublist (List.take_sublist _ _) (sortDesc_pairwise Prod.snd _)
  have hcum : ((sortDesc Prod.snd (rrfDict vres bres vw bw k)).take tk).Pairwise
      (fun p q => cumScore vres bres vw bw k q.1 ≤ cumScore vres bres vw bw k p.1) := by
    refine List.Pairwise.imp_of_mem ?_ htake
    intro a b ha hb hle
    have hva : a.2 = lookupScore (rrfDict vres bres vw bw k) a.1 :=
      pair_snd_eq_lookupScore _ (dictKeys_rrfDict_nodup vres bres vw bw k) a
        (mem_rrfDict_of_mem_take vres bres vw bw k tk a ha)
    have hvb : b.2 = lookupScore (rrfDict vres bres vw bw k) b.1 :=
      pair_snd_eq_lookupScore _ (dictKeys_rrfDict_nodup vres bres vw bw k) b
        (mem_rrfDict_of_mem_take vres bres vw bw k tk b hb)
    rw [lookupScore_rrfDict] at hva hvb
    rw [← hva, ← hvb]
    exact hle
  have hmap : (((sortDesc Prod.snd (rrfDict vres bres vw bw k)).take tk).map
      Prod.fst).Pairwise (fun x y =>
        cumScore vres bres vw bw k y ≤ cumScore vres bres vw bw k x) :=
    List.pairwise_map.mpr hcum
  rw [← hids] at hmap
  exact List.pairwise_map.mp hmap

theorem hybridFuse_isOk_iff (vres bres : List SearchResult) (vw bw : ℚ)
    (k tk : ℕ) :
    (∃ rs, hybridFuse vres bres vw bw k tk = .ok rs) ↔
      (rrfDict vres bres vw bw k = [] ∨ tk = 0 ∨
        maxScoreD (rrfDict vres bres vw bw k) ≠ 0) := by
  rw [hybridFuse_eq_normLoop, normLoop_isOk_iff]
  constructor
  · rintro (hnil | ⟨hm, _⟩)
    · rcases List.take_eq_nil_iff.mp hnil with h | h
      · right; left; exact h
      · left
        have hperm := (sortDesc_perm Prod.snd (rrfDict vres bres vw bw k)).symm
        rw [h] at hperm
        exact List.Perm.eq_nil hperm
    · right; right; exact hm
  · intro hcase
    rcases hcase with hd | htk | hm
    · left
      rw [hd]
      simp [sortDesc]
    · left
      rw [htk]
      simp
    · right
      refine ⟨hm, ?_⟩
      intro p hp
      exact lookupData_isSome_of_mem_take vres bres vw bw k tk p hp

theorem hybridFuse_ok_head (vres bres : List SearchResult) (vw bw : ℚ)
    (k tk : ℕ) (rs : List SearchResult)
    (h : hybridFuse vres bres vw bw k tk = .ok rs) (hne : rs ≠ []) :
    ∃ hd, rs.head? = some hd ∧ hd.score = 1 := by
  rw [hybridFuse_eq_normLoop] at h
  have hsc := normLoop_ok_map_score _ _ _ rs h
  have hlne : (sortDesc Prod.snd (rrfDict vres bres vw bw k)).take tk ≠ [] := by
    intro hc
    rw [hc, normLoop] at h
    cases h
    exact hne rfl
  have htk : tk ≠ 0 := by
    intro hc
    rw [hc] at hlne
    simp at hlne
  have hsne : sortDesc Prod.snd (rrfDict vres bres vw bw k) ≠ [] := by
    intro hc
    rw [hc] at hlne
    simp at hlne
  have hdne : rrfDict vres bres vw bw k ≠ [] := by
    intro hc
    rw [hc] at hsne
    exact hsne rfl
  obtain ⟨hd0, hhd0⟩ : ∃ p, (sortDesc Prod.snd (rrfDict vres bres vw bw k)).head? = some p := by
    cases hs : sortDesc Prod.snd (rrfDict vres bres vw bw k) with
    | nil => exact absurd hs hsne
    | cons a t => exact ⟨a, rfl⟩
  obtain ⟨hd0mem, hd0max'⟩ := sortDesc_head_max Prod.snd _ hd0 hhd0
  have hd0max : hd0.2 = maxScoreD (rrfDict vres bres vw bw k) :=
    le_antisymm (le_maxScoreD _ hd0 hd0mem)
      (maxScoreD_le _ _ hdne (fun p hp => hd0max' p hp))
  have hmne : maxScoreD (rrfDict vres bres vw bw k) ≠ 0 := by
    rcases (normLoop_isOk_iff _ _ _).mp ⟨rs, h⟩ with hc | ⟨hm, _⟩
    · exact absurd hc hlne
    · exact hm
  obtain ⟨hd, hhd⟩ : ∃ r, rs.head? = some r := by
    cases hrs : rs with
    | nil => exact absurd hrs hne
    | cons a t => exact ⟨a, rfl⟩
  refine ⟨hd, hhd, ?_⟩
  have h1 : (rs.map SearchResult.score).head? = some hd.score := by
    rw [List.head?_map, hhd]
    rfl
  have h2 : (((sortDesc Prod.snd (rrfDict vres bres vw bw k)).take tk).map
      (fun p => p.2 / maxScoreD (rrfDict vres bres vw bw k))).head? =
        some (hd0.2 / maxScoreD (rrfDict vres bres vw bw k)) := by
    rw [List.head?_map, head?_take _ tk htk, hhd0]
    rfl
  rw [hsc] at h1
  rw [h1] at h2
  have := Option.some.inj h2
  rw [this, hd0max, div_self hmne]

theorem hybridFuse_ok_length (vres bres : List SearchResult) (vw bw : ℚ)
    (k tk : ℕ) (rs : List SearchResult)
    (h : hybridFuse vres bres vw bw k tk = .ok rs) : rs.length ≤ tk := by
  rw [hybridFuse_eq_normLoop] at h
  have hf := normLoop_ok_forall₂ _ _ (pairInv_buildData vres bres) _ rs h
  have hlen := hf.length_eq
  rw [← hlen]
  exact List.length_take_le tk _

theorem hybridFuse_ok_nodup (vres bres : List SearchResult) (vw bw : ℚ)
    (k tk : ℕ) (rs : List SearchResult)
    (h : hybridFuse vres bres vw bw k tk = .ok rs) : (resultIds rs).Nodup := by
  rw [hybridFuse_ok_ids vres bres vw bw k tk rs h]
  have hsub : List.Sublist
      (((sortDesc Prod.snd (rrfDict vres bres vw bw k)).take tk).map Prod.fst)
      ((sortDesc Prod.snd (rrfDict vres bres vw bw k)).map Prod.fst) :=
    (List.take_sublist _ _).map Prod.fst
  have hperm : ((sortDesc Prod.snd (rrfDict vres bres vw bw k)).map Prod.fst).Perm
      ((rrfDict vres bres vw bw k).map Prod.fst) :=
    (sortDesc_perm Prod.snd _).map Prod.fst
  have hnd : ((sortDesc Prod.snd (rrfDict vres bres vw bw k)).map Prod.fst).Nodup :=
    hperm.nodup_iff.mpr (dictKeys_rrfDict_nodup vres bres vw bw k)
  exact List.Nodup.sublist hsub hnd

theorem cum_le_maxScoreD (vres bres : List SearchResult) (vw bw : ℚ) (k : ℕ)
    (j : String) (hj : j ∈ resultIds vres ∨ j ∈ resultIds bres) :
    cumScore vres bres vw bw k j ≤ maxScoreD (rrfDict vres bres vw bw k) := by
  have hkey := (mem_dictKeys_rrfDict vres bres vw bw k j).mpr hj
  obtain ⟨q, hq, hq1, hq2⟩ := lookupScorePair_spec _ j hkey
  rw [← lookupScore_rrfDict, ← hq2]
  exact le_maxScoreD _ q hq

theorem maxScoreD_attained (vres bres : List SearchResult) (vw bw : ℚ) (k : ℕ)
    (hne : rrfDict vres bres vw bw k ≠ []) :
    ∃ j, (j ∈ resultIds vres ∨ j ∈ resultIds bres) ∧
      cumScore vres bres vw bw k j = maxScoreD (rrfDict vres bres vw bw k) := by
  obtain ⟨p, hp, hpv⟩ := maxScoreD_mem _ hne
  refine ⟨p.1, ?_, ?_⟩
  · exact (mem_dictKeys_rrfDict vres bres vw bw k p.1).mp
      (List.mem_map.mpr ⟨p, hp, rfl⟩)
  · rw [← lookupScore_rrfDict,
      ← pair_snd_eq_lookupScore _ (dictKeys_rrfDict_nodup vres bres vw bw k) p hp]
    exact hpv

theorem search_length_le (e : RAGEngine) (q : String)
    (kbIds : Option (List String)) (tkn : ℕ) :
    (e.search q kbIds (some tkn)).length ≤ tkn := by
  unfold RAGEngine.search
  cases h : e.emb q with
  | none => simp [h]
  | some u =>
    simp only [h, resolveTopK, Option.getD_some]
    simp [List.length_take]

theorem bm25_search_length_le (e : RAGEngine) (q : String)
    (kbIds : Option (List String)) (tkn : ℕ) :
    (e.bm25_search q kbIds (some tkn)).length ≤ tkn := by
  unfold RAGEngine.bm25_search
  simp only [resolveTopK, Option.getD_some]
  simp [List.length_take]

theorem hybrid_search_rerank_false (e : RAGEngine) (query : String)
    (kbIds : Option (List String)) (tk : ℕ) (vw bw : ℚ) (expand : Bool) :
    e.hybrid_search query kbIds (some tk) vw bw expand false =
      hybridFuse
        (e.search (hybridSearchQuery query kbIds expand) kbIds (some (tk * 3)))
        (e.bm25_search (hybridSearchQuery query kbIds expand) kbIds (some (tk * 3)))
        vw bw rrf_k tk := by
  unfold RAGEngine.hybrid_search
  simp only [resolveTopK, Option.getD_some]
  split
  next err heq => rw [heq]
  next fr heq => simp [heq]

/-- C1: For every query, weight pair and candidate pool, `hybrid_search`
(re-ranking disabled, so the returned scores are the pre-rerank ones)
computes each returned chunk's score by Reciprocal Rank Fusion: each leg is
limited to `top_k * 3` candidates and contributes `weight / (60 + rank + 1)`
at the chunk's 0-based rank, contributions summing when a chunk appears in
both lists (`cumScore`); the returned list is ordered by cumulative score
descending, truncated to `top_k`, and every returned score is the chunk's
cumulative score divided by the maximum cumulative score over all
candidates (`rrfMax`), so the top-ranked result has score exactly 1. -/
theorem hybrid_search_rrf_normalization (e : RAGEngine) (query : String)
    (kbIds : Option (List String)) (tk : ℕ) (vw bw : ℚ) (expand : Bool)
    (rs : List SearchResult)
    (h : e.hybrid_search query kbIds (some tk) vw bw expand false = .ok rs) :
    ∀ vres bres : List SearchResult,
      vres = e.search (hybridSearchQuery query kbIds expand) kbIds (some (tk * 3)) →
      bres = e.bm25_search (hybridSearchQuery query kbIds expand) kbIds (some (tk * 3)) →
      vres.length ≤ tk * 3 ∧
      bres.length ≤ tk * 3 ∧
      rs.length ≤ tk ∧
      (∀ id ∈ resultIds vres ++ resultIds bres,
        cumScore vres bres vw bw 60 id ≤ rrfMax vres bres vw bw 60) ∧
      (resultIds vres ++ resultIds bres ≠ [] →
        ∃ id ∈ resultIds vres ++ resultIds bres,
          cumScore vres bres vw bw 60 id = rrfMax vres bres vw bw 60) ∧
      (∀ r ∈ rs,
        (r.chunk_id ∈ resultIds vres ∨ r.chunk_id ∈ resultIds bres) ∧
        r.score = cumScore vres bres vw bw 60 r.chunk_id /
          rrfMax vres bres vw bw 60) ∧
      rs.Pairwise (fun a b =>
        cumScore vres bres vw bw 60 b.chunk_id ≤
          cumScore vres bres vw bw 60 a.chunk_id) ∧
      (rs ≠ [] → ∃ hd, rs.head? = some hd ∧ hd.score = 1) := by
  intro vres bres hv hb
  have hfuse : hybridFuse vres bres vw bw 60 tk = .ok rs := by
    rw [hv, hb]
    exact (hybrid_search_rerank_false e query kbIds tk vw bw expand) ▸ h
  refine ⟨?_, ?_, ?_, ?_, ?_, ?_, ?_, ?_⟩
  · rw [hv]; exact search_length_le e _ kbIds (tk * 3)
  · rw [hb]; exact bm25_search_length_le e _ kbIds (tk * 3)
  · exact hybridFuse_ok_length vres bres vw bw 60 tk rs hfuse
  · intro id hid
    exact cum_le_maxScoreD vres bres vw bw 60 id (List.mem_append.mp hid)
  · intro hne
    obtain ⟨j, hj⟩ := List.exists_mem_of_ne_nil _ hne
    have hkey := (mem_dictKeys_rrfDict vres bres vw bw 60 j).mpr
      (List.mem_append.mp hj)
    have hdne : rrfDict vres bres vw bw 60 ≠ [] := by
      intro hc
      rw [hc] at hkey
      simp [dictKeys] at hkey
    obtain ⟨j', hj', hcum⟩ := maxScoreD_attained vres bres vw bw 60 hdne
    exact ⟨j', List.mem_append.mpr hj', hcum⟩
  · intro r hr
    obtain ⟨hsc, hmem⟩ := hybridFuse_ok_scores vres bres vw bw 60 tk rs hfuse r hr
    exact ⟨hmem, hsc⟩
  · exact hybridFuse_ok_pairwise vres bres vw bw 60 tk rs hfuse
  · intro hne
    exact hybridFuse_ok_head vres bres vw bw 60 tk rs hfuse hne

unseal Rat.add Rat.sub Rat.mul Rat.inv in
/-- Witness for C1 at a concrete engine: one chunk found by both legs with
weights (1/2, 1/2); its fused, normalised score is exactly 1. -/
theorem hybrid_search_rrf_normalization_witness :
    RAGEngine.hybrid_search engW1 "hund" (some ["kb1"]) (some 2) (1/2) (1/2)
        false false = .ok [⟨"c1", "doc1", 1, Metadata.empty⟩] ∧
    (∃ hd, ([(⟨"c1", "doc1", 1, Metadata.empty⟩ : SearchResult)]).head? = some hd ∧
      hd.score = 1) :=
  ⟨by decide,
    ((hybrid_search_rrf_normalization engW1 "hund" (some ["kb1"]) 2 (1/2) (1/2)
        false [⟨"c1", "doc1", 1, Metadata.empty⟩] (by decide)) _ _ rfl rfl).2.2.2.2.2.2.2
      (by decide)⟩

theorem legCumFrom_pos (w : ℚ) (k : ℕ) (res : List SearchResult) (hw : 0 < w) :
    ∀ (r0 : ℕ) (j : String), j ∈ resultIds res →
      0 < legCumFrom w k r0 res j := by
  induction res with
  | nil => intro r0 j hj; simp [resultIds] at hj
  | cons x xs ih =>
    intro r0 j hj
    rw [legCumFrom]
    by_cases h : x.chunk_id = j
    · rw [if_pos h]
      have h1 : 0 < w / ((k : ℚ) + r0 + 1) := div_pos hw (by positivity)
      have h2 : 0 ≤ legCumFrom w k (r0 + 1) xs j :=
        legCumFrom_nonneg w k xs (le_of_lt hw) _ _
      linarith
    · rw [if_neg h]
      have hjxs : j ∈ resultIds xs := by
        simp only [resultIds, List.map_cons, List.mem_cons] at hj
        rcases hj with rfl | hj
        · exact absurd rfl h
        · exact hj
      have := ih (r0 + 1) j hjxs
      linarith

theorem rerank_results_length (rs : List SearchResult) (query : String)
    (b : Bool) : (rerank_results rs query b).length = rs.length := by
  unfold rerank_results
  by_cases h : rs = []
  · rw [if_pos h]
  · rw [if_neg h]
    rw [(sortDesc_perm SearchResult.score _).length_eq]
    exact List.length_map _ _

theorem except_error_iff_not_ok {α : Type} (x : Except String α) :
    (∃ e, x = .error e) ↔ ¬∃ rs, x = .ok rs := by
  cases x <;> simp

theorem hybrid_search_eq (e : RAGEngine) (query : String)
    (kbIds : Option (List String)) (tk : ℕ) (vw bw : ℚ) (expand rr : Bool) :
    e.hybrid_search query kbIds (some tk) vw bw expand rr =
      (match hybridFuse
          (e.search (hybridSearchQuery query kbIds expand) kbIds (some (tk * 3)))
          (e.bm25_search (hybridSearchQuery query kbIds expand) kbIds (some (tk * 3)))
          vw bw rrf_k tk with
       | .error err => .error err
       | .ok fr =>
         if rr && !(fr = []) then
           .ok (rerank_results fr query ((kbIds.getD []).any
             (fun kb => kb = "bundesrecht" || kb = "gemeindewissen")))
         else .ok fr) := rfl

theorem hybrid_search_error_iff_fuse (e : RAGEngine) (query : String)
    (kbIds : Option (List String)) (tk : ℕ) (vw bw : ℚ) (expand rr : Bool) :
    (∃ err, e.hybrid_search query kbIds (some tk) vw bw expand rr = .error err) ↔
      (∃ err, hybridFuse
        (e.search (hybridSearchQuery query kbIds expand) kbIds (some (tk * 3)))
        (e.bm25_search (hybridSearchQuery query kbIds expand) kbIds (some (tk * 3)))
        vw bw rrf_k tk = .error err) := by
  rw [hybrid_search_eq]
  cases hybridFuse
      (e.search (hybridSearchQuery query kbIds expand) kbIds (some (tk * 3)))
      (e.bm25_search (hybridSearchQuery query kbIds expand) kbIds (some (tk * 3)))
      vw bw rrf_k tk with
  | error err => simp
  | ok fr =>
    simp only []
    constructor
    · rintro ⟨err, herr⟩
      split at herr <;> cases herr
    · rintro ⟨err, herr⟩
      cases herr

unseal Rat.add Rat.sub Rat.mul Rat.inv in
/-- Counterexample to C3: with both weights zero and a nonempty candidate
pool, `hybrid_search` raises ZeroDivisionError (the normalisation divides
by `max_score = 0`), so an exception does escape a search call. -/
theorem hybrid_search_zero_weights_raises :
    RAGEngine.hybrid_search engC3 "hund" (some ["kb1"]) (some 5) 0 0
      false false = .error "ZeroDivisionError" := by decide

/-- C3 (amended): `search` and `bm25_search` are total and `hybrid_search`
raises exactly when the fused candidate pool is nonempty, `top_k` is
positive and the maximum cumulative RRF score is zero (the
ZeroDivisionError of the normalisation step, e.g. with both weights zero);
in every other case it returns normally.  A failed query embedding degrades
the vector leg to an empty candidate list, and the lexical leg's results
are still returned: with a positive lexical weight, a positive `top_k` and
a nonempty lexical leg, `hybrid_search` returns a nonempty result list. -/
theorem search_ops_exception_safety (e : RAGEngine) (query : String)
    (kbIds : Option (List String)) (tk : ℕ) (vw bw : ℚ) (expand rr : Bool) :
    ∀ vres bres : List SearchResult,
      vres = e.search (hybridSearchQuery query kbIds expand) kbIds (some (tk * 3)) →
      bres = e.bm25_search (hybridSearchQuery query kbIds expand) kbIds (some (tk * 3)) →
      ((∃ err, e.hybrid_search query kbIds (some tk) vw bw expand rr = .error err) ↔
        (rrfDict vres bres vw bw 60 ≠ [] ∧ tk ≠ 0 ∧
          rrfMax vres bres vw bw 60 = 0)) ∧
      (e.emb (hybridSearchQuery query kbIds expand) = none →
        vres = [] ∧
        (0 < bw → tk ≠ 0 → bres ≠ [] →
          ∃ rs, e.hybrid_search query kbIds (some tk) vw bw expand rr = .ok rs ∧
            rs ≠ [])) := by
  intro vres bres hv hb
  constructor
  · rw [hybrid_search_error_iff_fuse, ← hv, ← hb]
    rw [except_error_iff_not_ok]
    rw [hybridFuse_isOk_iff]
    unfold rrfMax
    push_neg
    constructor
    · rintro ⟨h1, h2, h3⟩
      exact ⟨h1, h2, h3⟩
    · rintro ⟨h1, h2, h3⟩
      exact ⟨h1, h2, h3⟩
  · intro hemb
    have hvres : vres = [] := by
      rw [hv]
      unfold RAGEngine.search
      simp [hemb]
    refine ⟨hvres, ?_⟩
    intro hbw htk hbne
    obtain ⟨b0, hb0⟩ := List.exists_mem_of_ne_nil bres hbne
    have hb0id : b0.chunk_id ∈ resultIds bres := List.mem_map.mpr ⟨b0, hb0, rfl⟩
    have hkey : b0.chunk_id ∈ dictKeys (rrfDict vres bres vw bw 60) :=
      (mem_dictKeys_rrfDict vres bres vw bw 60 b0.chunk_id).mpr (Or.inr hb0id)
    have hdne : rrfDict vres bres vw bw 60 ≠ [] := by
      intro hc
      rw [hc] at hkey
      simp [dictKeys] at hkey
    have hmpos : 0 < maxScoreD (rrfDict vres bres vw bw 60) := by
      have hcum : 0 < cumScore vres bres vw bw 60 b0.chunk_id := by
        unfold cumScore
        rw [hvres]
        have h1 : legCumFrom vw 60 0 [] b0.chunk_id = 0 := rfl
        rw [h1]
        have := legCumFrom_pos bw 60 bres hbw 0 b0.chunk_id hb0id
        linarith
      calc (0 : ℚ) < cumScore vres bres vw bw 60 b0.chunk_id := hcum
        _ ≤ maxScoreD (rrfDict vres bres vw bw 60) :=
          cum_le_maxScoreD vres bres vw bw 60 b0.chunk_id (Or.inr hb0id)
    obtain ⟨fr, hfr⟩ := (hybridFuse_isOk_iff vres bres vw bw 60 tk).mpr
      (Or.inr (Or.inr (ne_of_gt hmpos)))
    have hfrne : fr ≠ [] := by
      rw [hybridFuse_eq_normLoop] at hfr
      have hlen := (normLoop_ok_forall₂ _ _ (pairInv_buildData vres bres) _ fr hfr).length_eq
      intro hc
      rw [hc] at hlen
      simp only [List.length_nil] at hlen
      have hsne : sortDesc Prod.snd (rrfDict vres bres vw bw 60) ≠ [] := by
        intro hcs
        have hperm := (sortDesc_perm Prod.snd (rrfDict vres bres vw bw 60)).symm
        rw [hcs] at hperm
        exact hdne (List.Perm.eq_nil hperm)
      rw [List.length_take] at hlen
      rcases Nat.min_eq_zero_iff.mp hlen with h | h
      · exact htk h
      · exact hsne (List.length_eq_zero.mp h)
    have hfuse60 : hybridFuse vres bres vw bw rrf_k tk = .ok fr := hfr
    rw [hv, hb] at hfuse60
    refine ⟨(if rr && !(fr = []) then
        rerank_results fr query ((kbIds.getD []).any
          (fun kb => kb = "bundesrecht" || kb = "gemeindewissen"))
      else fr), ?_, ?_⟩
    · rw [hybrid_search_eq]
      simp only [hfuse60]
      split <;> rfl
    · split
      · intro hc
        have := rerank_results_length fr query ((kbIds.getD []).any
          (fun kb => kb = "bundesrecht" || kb = "gemeindewissen"))
        rw [hc] at this
        simp only [List.length_nil] at this
        exact hfrne (List.length_eq_zero.mp this.symm)
      · exact hfrne

unseal Rat.add Rat.sub Rat.mul Rat.inv in
/-- Witness for C3 (amended): an engine whose query embedding fails still
returns the lexical leg's results from `hybrid_search`. -/
theorem search_ops_exception_safety_witness :
    engC3.emb (hybridSearchQuery "hund" (some ["kb1"]) false) = none ∧
    (∃ rs, RAGEngine.hybrid_search engC3 "hund" (some ["kb1"]) (some 5)
      (1/2) (1/2) false false = .ok rs ∧ rs ≠ []) :=
  ⟨by decide,
    ((search_ops_exception_safety engC3 "hund" (some ["kb1"]) 5 (1/2) (1/2)
        false false _ _ rfl rfl).2 (by decide)).2 (by norm_num) (by decide)
      (by decide)⟩

theorem fuse_order_of_strict_cum (vres bres : List SearchResult) (vw bw : ℚ)
    (tk : ℕ) (rs : List SearchResult) (a b : String)
    (hfuse : hybridFuse vres bres vw bw 60 tk = .ok rs)
    (hab : cumScore vres bres vw bw 60 b < cumScore vres bres vw bw 60 a)
    (ha : a ∈ resultIds rs) (hb : b ∈ resultIds rs) :
    (resultIds rs).indexOf a < (resultIds rs).indexOf b := by
  have hnd := hybridFuse_ok_nodup vres bres vw bw 60 tk rs hfuse
  have hpw := hybridFuse_ok_pairwise vres bres vw bw 60 tk rs hfuse
  have hpwL : (resultIds rs).Pairwise (fun x y =>
      cumScore vres bres vw bw 60 y ≤ cumScore vres bres vw bw 60 x) :=
    List.pairwise_map.mpr hpw
  have hia := List.indexOf_lt_length.mpr ha
  have hib := List.indexOf_lt_length.mpr hb
  by_contra hc
  push_neg at hc
  have hne : a ≠ b := by
    intro h
    rw [h] at hab
    exact lt_irrefl _ hab
  have hidxne : (resultIds rs).indexOf b ≠ (resultIds rs).indexOf a := by
    intro h
    exact hne ((List.indexOf_inj ha hb).mp (by
      have := List.indexOf_get (a := a) (l := resultIds rs) hia
      rw [h]))
  have hlt : (resultIds rs).indexOf b < (resultIds rs).indexOf a :=
    lt_of_le_of_ne hc hidxne
  have hR := List.pairwise_iff_get.mp hpwL
    ⟨(resultIds rs).indexOf b, hib⟩ ⟨(resultIds rs).indexOf a, hia⟩ hlt
  rw [List.indexOf_get hia, List.indexOf_get hib] at hR
  exact absurd hab (not_lt.mpr hR)

/-- C2: with weights (1, 0) (expansion and re-ranking disabled),
`hybrid_search` preserves the order of `search`'s results: any two chunks
of the vector leg appear in the fused output in their vector-rank order;
symmetrically, with weights (0, 1) the fused output preserves the order of
`bm25_search`'s results. -/
theorem hybrid_search_degenerate_weights_order (e : RAGEngine) (query : String)
    (kbIds : Option (List String)) (tk : ℕ) (a b : String) :
    ∀ vres bres : List SearchResult,
      vres = e.search (hybridSearchQuery query kbIds false) kbIds (some (tk * 3)) →
      bres = e.bm25_search (hybridSearchQuery query kbIds false) kbIds (some (tk * 3)) →
      ((∀ rs, e.hybrid_search query kbIds (some tk) 1 0 false false = .ok rs →
        (resultIds vres).Nodup →
        a ∈ resultIds vres → b ∈ resultIds vres →
        (resultIds vres).indexOf a < (resultIds vres).indexOf b →
        a ∈ resultIds rs → b ∈ resultIds rs →
        (resultIds rs).indexOf a < (resultIds rs).indexOf b) ∧
       (∀ rs, e.hybrid_search query kbIds (some tk) 0 1 false false = .ok rs →
        (resultIds bres).Nodup →
        a ∈ resultIds bres → b ∈ resultIds bres →
        (resultIds bres).indexOf a < (resultIds bres).indexOf b →
        a ∈ resultIds rs → b ∈ resultIds rs →
        (resultIds rs).indexOf a < (resultIds rs).indexOf b)) := by
  intro vres bres hv hb'
  constructor
  · intro rs hok hnd hav hbv hidx har hbr
    have hfuse : hybridFuse vres bres 1 0 60 tk = .ok rs := by
      rw [hv, hb']
      exact (hybrid_search_rerank_false e query kbIds tk 1 0 false) ▸ hok
    refine fuse_order_of_strict_cum vres bres 1 0 tk rs a b hfuse ?_ har hbr
    unfold cumScore
    simp only [legCumFrom_zero_weight, add_zero]
    rw [legCumFrom_of_nodup 1 60 vres 0 a hnd hav,
      legCumFrom_of_nodup 1 60 vres 0 b hnd hbv]
    apply div_lt_div_of_pos_left one_pos
    · positivity
    · push_cast
      have : ((resultIds vres).indexOf a : ℚ) < ((resultIds vres).indexOf b : ℚ) := by
        exact_mod_cast hidx
      linarith
  · intro rs hok hnd hav hbv hidx har hbr
    have hfuse : hybridFuse vres bres 0 1 60 tk = .ok rs := by
      rw [hv, hb']
      exact (hybrid_search_rerank_false e query kbIds tk 0 1 false) ▸ hok
    refine fuse_order_of_strict_cum vres bres 0 1 tk rs a b hfuse ?_ har hbr
    unfold cumScore
    simp only [legCumFrom_zero_weight, zero_add]
    rw [legCumFrom_of_nodup 1 60 bres 0 a hnd hav,
      legCumFrom_of_nodup 1 60 bres 0 b hnd hbv]
    apply div_lt_div_of_pos_left one_pos
    · positivity
    · push_cast
      have : ((resultIds bres).indexOf a : ℚ) < ((resultIds bres).indexOf b : ℚ) := by
        exact_mod_cast hidx
      linarith

unseal Rat.add Rat.sub Rat.mul Rat.inv in
/-- Witness for C2: with weights (1, 0) on a concrete engine, the two
vector hits keep their vector order in the fused output. -/
theorem hybrid_search_degenerate_weights_order_witness :
    RAGEngine.hybrid_search engW2 "hund" (some ["kb1"]) (some 3) 1 0
        false false = .ok
      [⟨"v1", "d1", 1, Metadata.empty⟩, ⟨"v2", "d2", 61/62, Metadata.empty⟩,
       ⟨"b1", "hund doc", 0, Metadata.empty⟩] ∧
    (resultIds
      [⟨"v1", "d1", 1, Metadata.empty⟩, ⟨"v2", "d2", 61/62, Metadata.empty⟩,
       ⟨"b1", "hund doc", 0, Metadata.empty⟩]).indexOf "v1" <
    (resultIds
      [⟨"v1", "d1", 1, Metadata.empty⟩, ⟨"v2", "d2", 61/62, Metadata.empty⟩,
       ⟨"b1", "hund doc", 0, Metadata.empty⟩]).indexOf "v2" :=
  ⟨by decide,
    ((hybrid_search_degenerate_weights_order engW2 "hund" (some ["kb1"]) 3
        "v1" "v2" _ _ rfl rfl).1
      [⟨"v1", "d1", 1, Metadata.empty⟩, ⟨"v2", "d2", 61/62, Metadata.empty⟩,
       ⟨"b1", "hund doc", 0, Metadata.empty⟩]
      (by decide) (by decide) (by decide) (by decide) (by decide) (by decide)
      (by decide))⟩

unseal Rat.add Rat.sub Rat.mul Rat.inv in
/-- C4 (code bug evidence): `fulltext_search` performs no sentinel
filtering, so a collection containing the sentinel record
(`__kb_metadata__` / "Knowledge Base Metadata", as every vector partition
does by construction) returns it as a hit for a matching query; by
contrast `search` and the BM25 rebuild corpus do exclude the sentinel on
the same state. -/
theorem fulltext_search_returns_sentinel :
    resultIds (RAGEngine.fulltext_search engC4 "Metadata" (some ["kb1"])) =
      ["__kb_metadata__", "c1"] ∧
    resultIds (RAGEngine.search engC4 "Metadata" (some ["kb1"]) (some 5)) =
      ["c1"] ∧
    (engC4.legacy "kb1").map rebuildCorpus =
      some [("c1", "ein Metadata Dokument")] := by decide

theorem mem_vecHitsToResults (thr : ℚ) :
    ∀ (hits : List VecHit) (r : SearchResult), r ∈ vecHitsToResults thr hits →
      ∃ h ∈ hits, h.id = r.chunk_id ∧ r.score = 1 - h.distance ∧ thr ≤ r.score := by
  intro hits
  induction hits with
  | nil => intro r hr; simp [vecHitsToResults] at hr
  | cons h hs ih =>
    intro r hr
    rw [vecHitsToResults] at hr
    by_cases h1 : h.id = "__kb_metadata__"
    · rw [if_pos h1] at hr
      obtain ⟨h', hm, hp⟩ := ih r hr
      exact ⟨h', List.mem_cons_of_mem h hm, hp⟩
    · rw [if_neg h1] at hr
      by_cases h2 : h.meta.type_ = some "kb_metadata"
      · rw [if_pos h2] at hr
        obtain ⟨h', hm, hp⟩ := ih r hr
        exact ⟨h', List.mem_cons_of_mem h hm, hp⟩
      · rw [if_neg h2] at hr
        by_cases h3 : thr ≤ 1 - h.distance
        · rw [if_pos h3] at hr
          rcases List.mem_cons.mp hr with rfl | hr
          · exact ⟨h, List.mem_cons_self h hs, rfl, rfl, h3⟩
          · obtain ⟨h', hm, hp⟩ := ih r hr
            exact ⟨h', List.mem_cons_of_mem h hm, hp⟩
        · rw [if_neg h3] at hr
          obtain ⟨h', hm, hp⟩ := ih r hr
          exact ⟨h', List.mem_cons_of_mem h hm, hp⟩

theorem mem_search_fold (e : RAGEngine) (q : String) (thr : ℚ) (tkp : ℕ) :
    ∀ (kbs : List String) (acc : List SearchResult) (r : SearchResult),
      r ∈ kbs.foldl (fun acc kb =>
        match e.vecQuery q kb with
        | none => acc
        | some hits => acc ++ vecHitsToResults thr (hits.take tkp)) acc ↔
      r ∈ acc ∨ ∃ kb ∈ kbs,
        r ∈ vecHitsToResults thr (((e.vecQuery q kb).getD []).take tkp) := by
  intro kbs
  induction kbs with
  | nil => intro acc r; simp
  | cons kb rest ih =>
    intro acc r
    simp only [List.foldl_cons]
    cases hq : e.vecQuery q kb with
    | none =>
      rw [ih]
      constructor
      · rintro (h | ⟨kb', hkb', h⟩)
        · exact Or.inl h
        · exact Or.inr ⟨kb', List.mem_cons_of_mem kb hkb', h⟩
      · rintro (h | ⟨kb', hkb', h⟩)
        · exact Or.inl h
        · rcases List.mem_cons.mp hkb' with rfl | hkb'
          · simp only [hq, Option.getD_none, List.take_nil] at h
            simp [vecHitsToResults] at h
          · exact Or.inr ⟨kb', hkb', h⟩
    | some hits =>
      rw [ih]
      simp only [List.mem_append]
      constructor
      · rintro ((h | h) | ⟨kb', hkb', h⟩)
        · exact Or.inl h
        · refine Or.inr ⟨kb, List.mem_cons_self kb rest, ?_⟩
          simp only [hq, Option.getD_some]
          exact h
        · exact Or.inr ⟨kb', List.mem_cons_of_mem kb hkb', h⟩
      · rintro (h | ⟨kb', hkb', h⟩)
        · exact Or.inl (Or.inl h)
        · rcases List.mem_cons.mp hkb' with rfl | hkb'
          · simp only [hq, Option.getD_some] at h
            exact Or.inl (Or.inr h)
          · exact Or.inr ⟨kb', hkb', h⟩

unseal Rat.add Rat.sub Rat.mul Rat.inv in
/-- Counterexample to C5: `bm25_search` returns the raw BM25 score, which
can exceed 1 — so not every SearchResult returned by the search operations
has a score in [0, 1]. -/
theorem bm25_search_score_exceeds_one :
    ∃ r ∈ RAGEngine.bm25_search engW2 "hund" (some ["kb1"]) (some 5),
      1 < r.score := by decide

/-- C5 (amended): every vector-search result's score equals 1 minus the
cosine distance of one of the (non-sentinel) hits of a queried knowledge
base and is at least `similarity_threshold`; when the store's cosine
distances lie in [0, 2] and the threshold is nonnegative, every
vector-search score lies in [0, 1].  (`bm25_search`, by contrast, returns
raw unnormalised BM25 scores.) -/
theorem vector_search_score_bounds (e : RAGEngine) (query : String)
    (kbIds : Option (List String)) (tk : Option ℕ) :
    ∀ r ∈ e.search query kbIds tk,
      e.similarity_threshold ≤ r.score ∧
      (∃ kb ∈ resolveKbs e kbIds, ∃ h ∈ (e.vecQuery query kb).getD [],
        h.id = r.chunk_id ∧ r.score = 1 - h.distance) ∧
      ((∀ kb ∈ resolveKbs e kbIds, ∀ h ∈ (e.vecQuery query kb).getD [],
          0 ≤ h.distance ∧ h.distance ≤ 2) →
        0 ≤ e.similarity_threshold →
        0 ≤ r.score ∧ r.score ≤ 1) := by
  intro r hr
  unfold RAGEngine.search at hr
  cases he : e.emb query with
  | none => simp only [he] at hr; simp at hr
  | some u =>
    simp only [he] at hr
    have hall := (sortDesc_perm SearchResult.score _).mem_iff.mp
      (List.mem_of_mem_take hr)
    rcases (mem_search_fold e query e.similarity_threshold
        (resolveTopK e tk + 1) (resolveKbs e kbIds) [] r).mp hall with
      hacc | ⟨kb, hkb, hmem⟩
    · simp at hacc
    · obtain ⟨h, hh, hid, hscore, hthr⟩ :=
        mem_vecHitsToResults e.similarity_threshold _ r hmem
      have hh' : h ∈ (e.vecQuery query kb).getD [] := List.mem_of_mem_take hh
      refine ⟨hthr, ⟨kb, hkb, h, hh', hid, hscore⟩, ?_⟩
      intro hbound hthr0
      obtain ⟨hd0, hd2⟩ := hbound kb hkb h hh'
      constructor
      · exact le_trans hthr0 hthr
      · rw [hscore]
        linarith

unseal Rat.add Rat.sub Rat.mul Rat.inv in
/-- Witness for C5 (amended): on a concrete engine the vector result has
score 3/4 = 1 - 1/4 and lies within [threshold, 1]. -/
theorem vector_search_score_bounds_witness :
    (⟨"c1", "doc1", 3/4, Metadata.empty⟩ : SearchResult) ∈
      RAGEngine.search engW1 "hund" (some ["kb1"]) (some 5) ∧
    (0 ≤ ((⟨"c1", "doc1", 3/4, Metadata.empty⟩ : SearchResult)).score ∧
      ((⟨"c1", "doc1", 3/4, Metadata.empty⟩ : SearchResult)).score ≤ 1) :=
  ⟨by decide,
    (vector_search_score_bounds engW1 "hund" (some ["kb1"]) (some 5)
      ⟨"c1", "doc1", 3/4, Metadata.empty⟩ (by decide)).2.2 (by decide)
      (by decide)⟩

theorem scanMetas_none_iff (f : String) :
    ∀ ms : List Metadata, scanMetas f ms = none ↔ ms.filter (relFilter f) = [] := by
  intro ms
  induction ms with
  | nil => simp [scanMetas]
  | cons m rest ih =>
    rw [scanMetas]
    by_cases h1 : m.type_ = some "kb_metadata"
    · rw [if_pos h1]
      have hf : relFilter f m = false := by
        unfold relFilter
        have : (m.type_ == some "kb_metadata") = true := by
          rw [beq_iff_eq]; exact h1
        rw [this]
        rfl
      rw [List.filter_cons, hf]
      simpa using ih
    · rw [if_neg h1]
      by_cases h2 : m.filename = some f
      · rw [if_pos h2]
        have hf : relFilter f m = true := by
          unfold relFilter
          have ht : (m.type_ == some "kb_metadata") = false := by
            rw [beq_eq_false_iff_ne]; exact h1
          have hn : (m.filename == some f) = true := by
            rw [beq_iff_eq]; exact h2
          rw [ht, hn]
          rfl
        rw [List.filter_cons, hf]
        simp
      · rw [if_neg h2]
        have hf : relFilter f m = false := by
          unfold relFilter
          have hn : (m.filename == some f) = false := by
            rw [beq_eq_false_iff_ne]; exact h2
          rw [hn]
          simp
        rw [List.filter_cons, hf]
        simpa using ih

theorem scanMetas_some_spec (f : String) :
    ∀ (ms : List Metadata) (v : Option String), scanMetas f ms = some v →
      ∃ m ∈ ms.filter (relFilter f), m.content_hash = v := by
  intro ms
  induction ms with
  | nil => intro v h; cases h
  | cons m rest ih =>
    intro v h
    rw [scanMetas] at h
    by_cases h1 : m.type_ = some "kb_metadata"
    · rw [if_pos h1] at h
      obtain ⟨m', hm', hv⟩ := ih v h
      refine ⟨m', ?_, hv⟩
      rw [List.filter_cons]
      have hf : relFilter f m = false := by
        unfold relFilter
        have : (m.type_ == some "kb_metadata") = true := by
          rw [beq_iff_eq]; exact h1
        rw [this]
        rfl
      rw [hf]
      exact hm'
    · rw [if_neg h1] at h
      by_cases h2 : m.filename = some f
      · rw [if_pos h2] at h
        have hf : relFilter f m = true := by
          unfold relFilter
          have ht : (m.type_ == some "kb_metadata") = false := by
            rw [beq_eq_false_iff_ne]; exact h1
          have hn : (m.filename == some f) = true := by
            rw [beq_iff_eq]; exact h2
          rw [ht, hn]
          rfl
        refine ⟨m, ?_, Option.some.inj h⟩
        rw [List.filter_cons, hf]
        exact List.mem_cons_self m _
      · rw [if_neg h2] at h
        obtain ⟨m', hm', hv⟩ := ih v h
        refine ⟨m', ?_, hv⟩
        rw [List.filter_cons]
        have hf : relFilter f m = false := by
          unfold relFilter
          have hn : (m.filename == some f) = false := by
            rw [beq_eq_false_iff_ne]; exact h2
          rw [hn]
          simp
        rw [hf]
        exact hm'

theorem scanMetas_uniform (f : String) :
    ∀ (ms : List Metadata) (H : Option String),
      (∀ m ∈ ms.filter (relFilter f), m.content_hash = H) →
      ms.filter (relFilter f) ≠ [] → scanMetas f ms = some H := by
  intro ms
  induction ms with
  | nil => intro H _ hne; exact absurd rfl hne
  | cons m rest ih =>
    intro H huni hne
    rw [scanMetas]
    by_cases h1 : m.type_ = some "kb_metadata"
    · rw [if_pos h1]
      have hf : relFilter f m = false := by
        unfold relFilter
        have : (m.type_ == some "kb_metadata") = true := by
          rw [beq_iff_eq]; exact h1
        rw [this]
        rfl
      rw [List.filter_cons, hf] at huni hne
      exact ih H huni hne
    · rw [if_neg h1]
      by_cases h2 : m.filename = some f
      · rw [if_pos h2]
        have hf : relFilter f m = true := by
          unfold relFilter
          have ht : (m.type_ == some "kb_metadata") = false := by
            rw [beq_eq_false_iff_ne]; exact h1
          have hn : (m.filename == some f) = true := by
            rw [beq_iff_eq]; exact h2
          rw [ht, hn]
          rfl
        rw [List.filter_cons, hf] at huni
        rw [huni m (List.mem_cons_self m _)]
      · rw [if_neg h2]
        have hf : relFilter f m = false := by
          unfold relFilter
          have hn : (m.filename == some f) = false := by
            rw [beq_eq_false_iff_ne]; exact h2
          rw [hn]
          simp
        rw [List.filter_cons, hf] at huni hne
        exact ih H huni hne

theorem get_document_hash_spec (e : RAGEngine) (kb f : String) :
    (relevantMetas e kb f = [] → e.get_document_hash kb f = none) ∧
    (∀ H, (∀ m ∈ relevantMetas e kb f, m.content_hash = H) →
      relevantMetas e kb f ≠ [] → e.get_document_hash kb f = H) := by
  unfold relevantMetas RAGEngine.get_document_hash
  rw [List.filter_append]
  cases hL : e.metasOf kb "local" with
  | none =>
    simp only [providerScan, hL, Option.getD_none, List.filter_nil,
      List.nil_append]
    cases hO : e.metasOf kb "openai" with
    | none =>
      simp only [providerScan, hO]
      exact ⟨fun _ => by simp [providerScan], fun H _ hne => absurd rfl hne⟩
    | some msB =>
      simp only [providerScan, hO, Option.getD_some]
      constructor
      · intro hemp
        rw [(scanMetas_none_iff f msB).mpr hemp]
      · intro H huni hne
        rw [scanMetas_uniform f msB H huni hne]
  | some msA =>
    simp only [providerScan, hL, Option.getD_some]
    constructor
    · intro hemp
      obtain ⟨hA, hB⟩ := List.append_eq_nil.mp hemp
      rw [(scanMetas_none_iff f msA).mpr hA]
      cases hO : e.metasOf kb "openai" with
      | none => simp only [providerScan, hO]
      | some msB =>
        simp only [hO, Option.getD_some] at hB
        simp only [providerScan, hO]
        rw [(scanMetas_none_iff f msB).mpr hB]
    · intro H huni hne
      by_cases hFA : msA.filter (relFilter f) = []
      · rw [(scanMetas_none_iff f msA).mpr hFA]
        cases hO : e.metasOf kb "openai" with
        | none =>
          simp only [hO, Option.getD_none, List.filter_nil] at hne
          rw [hFA] at hne
          simp at hne
        | some msB =>
          simp only [hO, Option.getD_some] at huni hne
          have huniB : ∀ m ∈ msB.filter (relFilter f), m.content_hash = H :=
            fun m hm => huni m (List.mem_append.mpr (Or.inr hm))
          have hneB : msB.filter (relFilter f) ≠ [] := by
            intro hc
            apply hne
            rw [hFA, hc]
            rfl
          simp only [providerScan, hO]
          rw [scanMetas_uniform f msB H huniB hneB]
      · have huniA : ∀ m ∈ msA.filter (relFilter f), m.content_hash = H :=
          fun m hm => huni m (List.mem_append.mpr (Or.inl hm))
        rw [scanMetas_uniform f msA H huniA hFA]

/-- C6: under a consistent store (all non-sentinel records for the
filename carry the same stored hash), `needs_reembedding` returns `False`
exactly when some previously ingested record with that filename has stored
content hash equal to the new hash; in particular it returns `True` for a
filename never seen before, so re-embedding is skipped iff the content
hash is unchanged. -/
theorem needs_reembedding_iff_hash_match (e : RAGEngine) (kb f h : String)
    (hcons : ∀ m1 ∈ relevantMetas e kb f, ∀ m2 ∈ relevantMetas e kb f,
      m1.content_hash = m2.content_hash) :
    (e.needs_reembedding kb f h = false ↔
      ∃ m ∈ relevantMetas e kb f, m.content_hash = some h) ∧
    (relevantMetas e kb f = [] → e.needs_reembedding kb f h = true) := by
  obtain ⟨hnone, huni⟩ := get_document_hash_spec e kb f
  have hneeds : e.needs_reembedding kb f h =
      (match e.get_document_hash kb f with
       | none => true
       | some existing => !(existing == h)) := rfl
  by_cases hemp : relevantMetas e kb f = []
  · rw [hneeds, hnone hemp]
    constructor
    · constructor
      · intro hc
        cases hc
      · rintro ⟨m, hm, _⟩
        rw [hemp] at hm
        simp at hm
    · intro _
      rfl
  · obtain ⟨m0, hm0⟩ := List.exists_mem_of_ne_nil _ hemp
    have huniall : ∀ m ∈ relevantMetas e kb f, m.content_hash = m0.content_hash :=
      fun m hm => hcons m hm m0 hm0
    have hg := huni m0.content_hash huniall hemp
    rw [hneeds, hg]
    cases hmc : m0.content_hash with
    | none =>
      refine ⟨⟨fun hc => ?_, ?_⟩, fun hc => absurd hc hemp⟩
      · cases hc
      · rintro ⟨m, hm, hmh⟩
        rw [huniall m hm, hmc] at hmh
        cases hmh
    | some eh =>
      refine ⟨⟨fun hfalse => ?_, ?_⟩, fun hc => absurd hc hemp⟩
      · have hfalse' : (!(eh == h)) = false := hfalse
        have heq : eh = h := by
          by_contra hne
          have hb : (eh == h) = false := by rw [beq_eq_false_iff_ne]; exact hne
          rw [hb] at hfalse'
          cases hfalse'
        refine ⟨m0, hm0, ?_⟩
        rw [hmc, heq]
      · rintro ⟨m, hm, hmh⟩
        rw [huniall m hm, hmc] at hmh
        have heq : eh = h := Option.some.inj hmh
        show (!(eh == h)) = false
        have hb : (eh == h) = true := by rw [beq_iff_eq]; exact heq
        rw [hb]
        rfl

/-- Witness for C6 at a concrete engine with a consistently hashed
document: skipping re-embedding coincides with an unchanged hash. -/
theorem needs_reembedding_iff_hash_match_witness :
    (∀ m1 ∈ relevantMetas engC6 "kb1" "f.pdf",
      ∀ m2 ∈ relevantMetas engC6 "kb1" "f.pdf",
        m1.content_hash = m2.content_hash) ∧
    (RAGEngine.needs_reembedding engC6 "kb1" "f.pdf" "h1" = false ↔
      ∃ m ∈ relevantMetas engC6 "kb1" "f.pdf", m.content_hash = some "h1") :=
  ⟨by decide,
    (needs_reembedding_iff_hash_match engC6 "kb1" "f.pdf" "h1" (by decide)).1⟩

theorem ite_or_list (L O : Bool) (lst : List (String × String))
    (hlst : lst ≠ []) :
    ((if L || O then lst else []) = lst ↔ (L ∨ O)) ∧
    ((if L || O then lst else []) = [] ↔ ¬(L ∨ O)) := by
  cases L <;> cases O <;> simp_all

/-- C7: for a document with a nonempty chunk list, `add_document` hands all
of the document's chunks to the BM25 index iff at least one embedding
provider successfully stored the document; each provider's outcome is its
own embedding availability and store success, independent of the other
provider's. -/
theorem add_document_bm25_iff_provider_success (e : RAGEngine)
    (doc : ProcessedDocument) (hchunks : doc.chunks ≠ []) :
    ((e.add_document doc).bm25Added =
        doc.chunks.map (fun c => (c.id, c.content)) ↔
      ((e.add_document doc).loc ∨ (e.add_document doc).openai)) ∧
    ((e.add_document doc).bm25Added = [] ↔
      ¬((e.add_document doc).loc ∨ (e.add_document doc).openai)) ∧
    (e.add_document doc).loc =
      (e.dualLocalOk &&
        e.storeOk (doc.metadata.knowledge_base.getD "default") "local") ∧
    (e.add_document doc).openai =
      (e.dualOpenaiOk &&
        e.storeOk (doc.metadata.knowledge_base.getD "default") "openai") := by
  have hmapne : doc.chunks.map (fun c => (c.id, c.content)) ≠ [] := by
    intro hc
    exact hchunks (List.map_eq_nil_iff.mp hc)
  have hadd : e.add_document doc =
      ⟨e.dualLocalOk &&
          e.storeOk (doc.metadata.knowledge_base.getD "default") "local",
        e.dualOpenaiOk &&
          e.storeOk (doc.metadata.knowledge_base.getD "default") "openai",
        if (e.dualLocalOk &&
              e.storeOk (doc.metadata.knowledge_base.getD "default") "local") ||
            (e.dualOpenaiOk &&
              e.storeOk (doc.metadata.knowledge_base.getD "default") "openai")
          then doc.chunks.map (fun c => (c.id, c.content)) else []⟩ := by
    unfold RAGEngine.add_document
    rw [if_neg hchunks]
  rw [hadd]
  obtain ⟨h1, h2⟩ := ite_or_list
    (e.dualLocalOk && e.storeOk (doc.metadata.knowledge_base.getD "default") "local")
    (e.dualOpenaiOk && e.storeOk (doc.metadata.knowledge_base.getD "default") "openai")
    (doc.chunks.map (fun c => (c.id, c.content))) hmapne
  exact ⟨h1, h2, rfl, rfl⟩

/-- Witness for C7 at a concrete engine and document: both providers
succeed and the BM25 index receives both chunks. -/
theorem add_document_bm25_iff_provider_success_witness :
    docW7.chunks ≠ [] ∧
    ((RAGEngine.add_document engW1 docW7).bm25Added =
        docW7.chunks.map (fun c => (c.id, c.content)) ↔
      ((RAGEngine.add_document engW1 docW7).loc ∨
        (RAGEngine.add_document engW1 docW7).openai)) :=
  ⟨by decide,
    (add_document_bm25_iff_provider_success engW1 docW7 (by decide)).1⟩

theorem dedupFirst_nodup : ∀ l : List String, (dedupFirst l).Nodup := by
  intro l
  induction l with
  | nil => exact List.nodup_nil
  | cons x xs ih =>
    rw [dedupFirst]
    refine List.nodup_cons.mpr ⟨?_, ?_⟩
    · intro hc
      obtain ⟨hmem, hfil⟩ := List.mem_filter.mp hc
      simp at hfil
    · exact List.Nodup.filter _ ih

theorem mem_dedupFirst : ∀ (l : List String) (t : String),
    t ∈ dedupFirst l → t ∈ l := by
  intro l
  induction l with
  | nil => intro t h; cases h
  | cons x xs ih =>
    intro t h
    rw [dedupFirst] at h
    rcases List.mem_cons.mp h with rfl | h
    · exact List.mem_cons_self t xs
    · exact List.mem_cons_of_mem x (ih t (List.mem_filter.mp h).1)

theorem mem_tableTerms (ql : String) :
    ∀ (tbl : List (String × List String)) (t : String), t ∈ tableTerms ql tbl →
      ∃ p ∈ tbl, strContainsSub p.1 ql ∧ t ∈ p.2.take 3 := by
  intro tbl
  induction tbl with
  | nil => intro t h; cases h
  | cons p rest ih =>
    intro t h
    rw [tableTerms] at h
    rcases List.mem_append.mp h with h | h
    · by_cases hc : strContainsSub p.1 ql
      · rw [if_pos hc] at h
        exact ⟨p, List.mem_cons_self p rest, hc, h⟩
      · rw [if_neg hc] at h
        cases h
    · obtain ⟨p', hp', hc, ht⟩ := ih t h
      exact ⟨p', List.mem_cons_of_mem p hp', hc, ht⟩

theorem mem_collectTerms (ql : String) :
    ∀ (ids : List String) (t : String), t ∈ collectTerms ql ids →
      ∃ kb ∈ ids, ∃ p ∈ (expansionsFor kb).getD [],
        strContainsSub p.1 ql ∧ t ∈ p.2.take 3 := by
  intro ids
  induction ids with
  | nil => intro t h; cases h
  | cons kb rest ih =>
    intro t h
    rw [collectTerms] at h
    rcases List.mem_append.mp h with h | h
    · cases he : expansionsFor kb with
      | none => rw [he] at h; cases h
      | some tbl =>
        rw [he] at h
        obtain ⟨p, hp, hc, ht⟩ := mem_tableTerms ql tbl t h
        refine ⟨kb, List.mem_cons_self kb rest, p, ?_, hc, ht⟩
        rw [he]
        exact hp
    · obtain ⟨kb', hkb', hrest⟩ := ih t h
      exact ⟨kb', List.mem_cons_of_mem kb hkb', hrest⟩

theorem tableTerms_eq_nil (ql : String) :
    ∀ tbl : List (String × List String),
      (∀ p ∈ tbl, ¬strContainsSub p.1 ql) → tableTerms ql tbl = [] := by
  intro tbl
  induction tbl with
  | nil => intro _; rfl
  | cons p rest ih =>
    intro h
    rw [tableTerms, if_neg (h p (List.mem_cons_self p rest))]
    rw [List.nil_append]
    exact ih (fun q hq => h q (List.mem_cons_of_mem p hq))

theorem collectTerms_eq_nil (ql : String) :
    ∀ ids : List String,
      (¬ ∃ kb ∈ ids, ∃ p ∈ (expansionsFor kb).getD [],
        strContainsSub p.1 ql) → collectTerms ql ids = [] := by
  intro ids
  induction ids with
  | nil => intro _; rfl
  | cons kb rest ih =>
    intro h
    push_neg at h
    rw [collectTerms]
    have hrest : collectTerms ql rest = [] := by
      apply ih
      push_neg
      intro kb' hkb'
      exact h kb' (List.mem_cons_of_mem kb hkb')
    rw [hrest]
    cases he : expansionsFor kb with
    | none => rfl
    | some tbl =>
      rw [List.append_nil]
      apply tableTerms_eq_nil
      intro p hp
      have := h kb (List.mem_cons_self kb rest) p
      rw [he] at this
      exact this hp

/-- C9: `expand_query` appends at most 3 synonyms per matched table key
(every appended term is among the first three synonyms of some matched key
of a targeted knowledge base's registered table) and at most 6 added terms
in total (deduplicated); when no targeted knowledge base has a registered
table with a key matching the query — in particular with no kb ids — the
query is returned unchanged, so the query is modified only when some
registered key matches. -/
theorem expand_query_caps_and_noop (query : String) (kbIds : List String) :
    (addedTerms query kbIds).length ≤ 6 ∧
    (addedTerms query kbIds).Nodup ∧
    (∀ t ∈ addedTerms query kbIds, ∃ kb ∈ kbIds,
      ∃ p ∈ (expansionsFor kb).getD [],
        strContainsSub p.1 (pyLowerStr query) ∧ t ∈ p.2.take 3) ∧
    ((¬ ∃ kb ∈ kbIds, ∃ p ∈ (expansionsFor kb).getD [],
        strContainsSub p.1 (pyLowerStr query)) →
      expand_query query kbIds = query) ∧
    (expand_query query kbIds ≠ query →
      ∃ kb ∈ kbIds, ∃ p ∈ (expansionsFor kb).getD [],
        strContainsSub p.1 (pyLowerStr query)) := by
  have haddedcases : addedTerms query kbIds = [] ∨
      addedTerms query kbIds =
        (dedupFirst (collectTerms (pyLowerStr query) kbIds)).take 6 := by
    unfold addedTerms
    by_cases h1 : kbIds = []
    · rw [if_pos h1]
      exact Or.inl rfl
    · rw [if_neg h1]
      by_cases h2 : collectTerms (pyLowerStr query) kbIds = []
      · simp only [h2]
        exact Or.inl (by simp)
      · simp only [if_neg h2]
        exact Or.inr trivial
  have hd : (¬ ∃ kb ∈ kbIds, ∃ p ∈ (expansionsFor kb).getD [],
      strContainsSub p.1 (pyLowerStr query)) →
      expand_query query kbIds = query := by
    intro hno
    unfold expand_query
    by_cases h1 : kbIds = []
    · rw [if_pos h1]
    · rw [if_neg h1]
      simp [collectTerms_eq_nil (pyLowerStr query) kbIds hno]
  refine ⟨?_, ?_, ?_, hd, ?_⟩
  · rcases haddedcases with h | h <;> rw [h]
    · simp
    · exact List.length_take_le 6 _
  · rcases haddedcases with h | h <;> rw [h]
    · exact List.nodup_nil
    · exact List.Nodup.sublist (List.take_sublist 6 _) (dedupFirst_nodup _)
  · intro t ht
    rcases haddedcases with h | h
    · rw [h] at ht
      cases ht
    · rw [h] at ht
      exact mem_collectTerms (pyLowerStr query) kbIds t
        (mem_dedupFirst _ t (List.mem_of_mem_take ht))
  · intro hne
    by_contra hno
    exact hne (hd hno)

/-- Witness for C9: the query "vertrag" targeted at `bundesrecht` picks up
exactly the first three synonyms of the matched key `vertrag`. -/
theorem expand_query_caps_and_noop_witness :
    addedTerms "vertrag" ["bundesrecht"] =
      ["Kontrakt", "Vereinbarung", "Obligationenrecht"] ∧
    (∀ t ∈ addedTerms "vertrag" ["bundesrecht"], ∃ kb ∈ ["bundesrecht"],
      ∃ p ∈ (expansionsFor kb).getD [],
        strContainsSub p.1 (pyLowerStr "vertrag") ∧ t ∈ p.2.take 3) :=
  ⟨by decide, (expand_query_caps_and_noop "vertrag" ["bundesrecht"]).2.2.1⟩

theorem dropWhile_length_le (p : Char → Bool) :
    ∀ l : List Char, (l.dropWhile p).length ≤ l.length := by
  intro l
  induction l with
  | nil => simp
  | cons c cs ih =>
    rw [List.dropWhile_cons]
    split
    · exact le_trans ih (Nat.le_succ _)
    · exact le_refl _

theorem pyStrip_length_le (l : List Char) : (pyStrip l).length ≤ l.length := by
  unfold pyStrip
  calc ((l.dropWhile isPySpace).reverse.dropWhile isPySpace).reverse.length
      = ((l.dropWhile isPySpace).reverse.dropWhile isPySpace).length := by
        rw [List.length_reverse]
    _ ≤ (l.dropWhile isPySpace).reverse.length := dropWhile_length_le _ _
    _ = (l.dropWhile isPySpace).length := by rw [List.length_reverse]
    _ ≤ l.length := dropWhile_length_le _ _

theorem pySlice_length_le (l : List Char) (a b : ℤ) (ha : 0 ≤ a)
    (hab : a ≤ b) : ((pySlice l a b).length : ℤ) ≤ b - a := by
  unfold pySlice pyIdx
  rw [if_neg (not_lt.mpr ha), if_neg (not_lt.mpr (le_trans ha hab))]
  rw [List.length_drop, List.length_take]
  omega

theorem listStartsWith_length : ∀ pat l : List Char,
    listStartsWith pat l = true → pat.length ≤ l.length := by
  intro pat
  induction pat with
  | nil => intro l _; simp
  | cons p ps ih =>
    intro l h
    cases l with
    | nil => cases h
    | cons c cs =>
      rw [listStartsWith] at h
      simp only [Bool.and_eq_true] at h
      simpa using ih cs h.2

theorem rfindGo_spec (l pat : List Char) :
    ∀ i j : ℕ, rfindGo l pat i = some j →
      j ≤ i ∧ listStartsWith pat (l.drop j) = true := by
  intro i
  induction i with
  | zero =>
    intro j h
    rw [rfindGo] at h
    split at h
    · cases h
      exact ⟨le_refl 0, by simpa using (by assumption : listStartsWith pat l = true)⟩
    · cases h
  | succ i ih =>
    intro j h
    rw [rfindGo] at h
    split at h
    · cases h
      exact ⟨le_refl _, by assumption⟩
    · obtain ⟨h1, h2⟩ := ih j h
      exact ⟨le_trans h1 (Nat.le_succ i), h2⟩

theorem rfind_le (l pat : List Char) (j : ℕ) (h : rfind l pat = some j) :
    j + pat.length ≤ l.length := by
  have hspec := rfindGo_spec l pat l.length j h
  have hsl := listStartsWith_length pat _ hspec.2
  rw [List.length_drop] at hsl
  omega

theorem findSnap_bounds (region : List Char) :
    ∀ (seps : List (List Char)) (k : ℕ), (∀ sep ∈ seps, 1 ≤ sep.length) →
      findSnap region seps = some k → 1 ≤ k ∧ k ≤ region.length := by
  intro seps
  induction seps with
  | nil => intro k _ h; cases h
  | cons sep rest ih =>
    intro k hlen h
    rw [findSnap] at h
    cases hr : rfind region sep with
    | some i =>
      rw [hr] at h
      simp only [Option.map_some'] at h
      cases h
      have hle := rfind_le region sep i hr
      have h1 := hlen sep (List.mem_cons_self sep rest)
      exact ⟨by omega, by omega⟩
    | none =>
      rw [hr] at h
      exact ih k (fun s hs => hlen s (List.mem_cons_of_mem sep hs)) h

theorem eightyPercent_lt (cc : ℕ) (hcc : 1 ≤ cc) : eightyPercent cc < cc := by
  unfold eightyPercent
  have h1 : (4 * cc / 5) * 5 ≤ 4 * cc := Nat.div_mul_le_self (4 * cc) 5
  omega

theorem cutEnd_bounds (text : List Char) (start : ℤ) (cc : ℕ)
    (hs : 0 ≤ start) (hcc : 1 ≤ cc) :
    start + (eightyPercent cc : ℕ) + 1 ≤ cutEnd text start cc ∧
      cutEnd text start cc ≤ start + cc := by
  have hdiv := eightyPercent_lt cc hcc
  unfold cutEnd
  by_cases hend : start + (cc : ℤ) < (text.length : ℤ)
  · rw [if_pos hend]
    cases hsnap : findSnap
        (pySlice text (start + (eightyPercent cc : ℕ)) (start + (cc : ℤ)))
        chunkSeps with
    | none =>
      simp only []
      constructor
      · omega
      · omega
    | some k =>
      obtain ⟨hk1, hk2⟩ := findSnap_bounds _ chunkSeps k (by decide) hsnap
      have hreg := pySlice_length_le text (start + (eightyPercent cc : ℕ))
        (start + (cc : ℤ)) (by omega) (by omega)
      simp only []
      constructor
      · omega
      · omega
  · rw [if_neg hend]
    constructor
    · omega
    · omega

theorem chunkLoop_spec (cc oc : ℕ) (text : List Char) (docId : String)
    (meta : Metadata) (hcc : 1 ≤ cc) (hoc : oc ≤ eightyPercent cc) :
    ∀ (fuel : ℕ) (start : ℤ) (ci : ℕ), 0 ≤ start →
      (text.length : ℤ) < start + fuel →
      ∃ cs, chunkLoop cc oc text docId meta fuel start ci = some cs ∧
        ∀ c ∈ cs, c.content.length ≤ cc := by
  intro fuel
  induction fuel with
  | zero =>
    intro start ci hs hflt
    rw [chunkLoop]
    rw [if_neg (by push_cast at hflt ⊢; omega : ¬(start < (text.length : ℤ)))]
    refine ⟨[], rfl, ?_⟩
    intro c hc
    cases hc
  | succ fuel ih =>
    intro start ci hs hflt
    rw [chunkLoop]
    by_cases hlt : start < (text.length : ℤ)
    · rw [if_pos hlt]
      simp only []
      obtain ⟨hlow, hhigh⟩ := cutEnd_bounds text start cc hs hcc
      have hocle : ((oc : ℤ)) ≤ ((eightyPercent cc : ℕ) : ℤ) := by
        exact_mod_cast hoc
      have hstart' : 1 ≤ cutEnd text start cc - (oc : ℤ) := by omega
      have hguardfalse : ∀ n : ℕ,
          ¬(cutEnd text start cc - (oc : ℤ) ≤ 0 ∧ 0 < n) := by
        intro n hc
        omega
      rw [if_neg (hguardfalse _)]
      by_cases hempty :
          pyStrip (pySlice text start (cutEnd text start cc)) = []
      · simp only [if_pos hempty]
        obtain ⟨rest, hrest, hbound⟩ :=
          ih (cutEnd text start cc - oc) ci (by omega) (by push_cast at hflt ⊢; omega)
        rw [hrest]
        exact ⟨rest, rfl, hbound⟩
      · simp only [if_neg hempty]
        obtain ⟨rest, hrest, hbound⟩ :=
          ih (cutEnd text start cc - oc) (ci + 1) (by omega)
            (by push_cast at hflt ⊢; omega)
        rw [hrest]
        refine ⟨⟨docId ++ "_chunk_" ++ toString ci,
          String.mk (pyStrip (pySlice text start (cutEnd text start cc))),
          ⟨meta, ci, start, cutEnd text start cc⟩⟩ :: rest, rfl, ?_⟩
        intro c hc
        rcases List.mem_cons.mp hc with rfl | hc
        · have h1 := pyStrip_length_le (pySlice text start (cutEnd text start cc))
          have h2 := pySlice_length_le text start (cutEnd text start cc) hs
            (by omega)
          have h3 : (String.mk (pyStrip
              (pySlice text start (cutEnd text start cc)))).length =
              (pyStrip (pySlice text start (cutEnd text start cc))).length := rfl
          show (String.mk (pyStrip
            (pySlice text start (cutEnd text start cc)))).length ≤ cc
          rw [h3]
          omega
        · exact hbound c hc
    · rw [if_neg hlt]
      refine ⟨[], rfl, ?_⟩
      intro c hc
      cases hc

/-- C10: for every input text, `_create_chunks` terminates whenever the
configured overlap in characters is smaller than 80% of the character
window (here: `5 * chunk_overlap < 4 * chunk_size`, i.e.
`chunk_overlap * 4 < 0.8 * (chunk_size * 4)`): every cut point lies at
least 80% of the window beyond the current start, so each iteration
strictly increases the start position and fuel `length + 1` suffices. -/
theorem create_chunks_terminates (chunk_size chunk_overlap : ℕ)
    (text docId : String) (baseMeta : Metadata)
    (hov : 5 * chunk_overlap < 4 * chunk_size) :
    ∃ cs, createChunks chunk_size chunk_overlap text docId baseMeta =
      some cs := by
  unfold createChunks
  by_cases hemp : pyStrip text.toList = []
  · exact ⟨[], by rw [if_pos hemp]⟩
  · rw [if_neg hemp]
    have hcc : 1 ≤ chunk_size * 4 := by omega
    have hoc : chunk_overlap * 4 ≤ eightyPercent (chunk_size * 4) := by
      unfold eightyPercent
      rw [Nat.le_div_iff_mul_le (by omega)]
      omega
    obtain ⟨cs, hloop, _⟩ := chunkLoop_spec (chunk_size * 4)
      (chunk_overlap * 4) (normalizeWs text.toList) docId baseMeta hcc hoc
      ((normalizeWs text.toList).length + 1) 0 0 (by omega)
      (by push_cast; omega)
    exact ⟨cs, hloop⟩

theorem create_chunks_terminates_witness :
    ∃ cs, createChunks 800 100 "Hallo Welt" "d" Metadata.empty = some cs :=
  create_chunks_terminates 800 100 "Hallo Welt" "d" Metadata.empty (by decide)

/-- C8 (amended): for every input text, whenever the overlap is smaller
than 80% of the character window the chunking loop succeeds and no
produced chunk's content is longer than the window `chunk_size * 4`; the
cut is snapped backward within the last 20% of the window to a sentence
terminator chosen by fixed priority order (the first of `". "`, `"! "`,
`"? "`, newline that occurs at all wins, at its last occurrence), not to
the nearest terminator — see the counterexample. -/
theorem create_chunks_window_bound (chunk_size chunk_overlap : ℕ)
    (text docId : String) (baseMeta : Metadata)
    (hov : 5 * chunk_overlap < 4 * chunk_size) :
    ∃ chunks, createChunks chunk_size chunk_overlap text docId baseMeta =
      some chunks ∧ ∀ c ∈ chunks, c.content.length ≤ chunk_size * 4 := by
  unfold createChunks
  by_cases hemp : pyStrip text.toList = []
  · refine ⟨[], by rw [if_pos hemp], ?_⟩
    intro c hc
    cases hc
  · rw [if_neg hemp]
    have hcc : 1 ≤ chunk_size * 4 := by omega
    have hoc : chunk_overlap * 4 ≤ eightyPercent (chunk_size * 4) := by
      unfold eightyPercent
      rw [Nat.le_div_iff_mul_le (by omega)]
      omega
    exact chunkLoop_spec (chunk_size * 4) (chunk_overlap * 4)
      (normalizeWs text.toList) docId baseMeta hcc hoc
      ((normalizeWs text.toList).length + 1) 0 0 (by omega)
      (by push_cast; omega)

theorem create_chunks_window_bound_witness :
    ∃ chunks,
      createChunks 5 1 "Dies ist ein Test. Noch mehr Text hier! Ende" "d"
        Metadata.empty = some chunks ∧
      ∀ c ∈ chunks, c.content.length ≤ 5 * 4 :=
  create_chunks_window_bound 5 1 "Dies ist ein Test. Noch mehr Text hier! Ende"
    "d" Metadata.empty (by decide)

/-- C8 counterexample: the source snaps to the last occurrence of the
first separator type (in the order `". "`, `"! "`, `"? "`, newline) found
anywhere in the snap region — not to the nearest (rightmost) terminator as
the claim states. On this text the `". "` at offset 16 wins over the
nearer `"! "`, so the chunks differ from the nearest-terminator model. -/
theorem create_chunks_not_nearest_terminator :
    createChunks 5 0 "aaaaaaaaaaaaaaaa. ! zzz" "d" Metadata.empty ≠
      specCreateChunks 5 0 "aaaaaaaaaaaaaaaa. ! zzz" "d" Metadata.empty := by
  decide
